import Mathlib

/-!
Verification of the ledger accounting logic of the substrate-tutorials
repository: the fungible-assets pallet (exercises/ex01-fungible-token)
and the unique-assets pallet (exercises/ex03-nft).

Storage maps (substrate StorageMap / StorageDoubleMap) are embedded as
association lists whose insert overwrites the first matching key.
Machine integers (u128 balances, supplies and ids) are embedded as Nat,
with saturation written out explicitly and wrapping addition written as
addition modulo 2 ^ 128.
-/

set_option maxHeartbeats 1000000
set_option maxRecDepth 4000

/-- Decidable equality of call results. -/
instance exceptDecEq {ε α : Type} [DecidableEq ε] [DecidableEq α] :
    DecidableEq (Except ε α) := fun x y =>
  match x, y with
  | .ok a, .ok b =>
    if h : a = b then .isTrue (by rw [h]) else .isFalse (by intro hc; cases hc; exact h rfl)
  | .error a, .error b =>
    if h : a = b then .isTrue (by rw [h]) else .isFalse (by intro hc; cases hc; exact h rfl)
  | .ok _, .error _ => .isFalse (by intro hc; cases hc)
  | .error _, .ok _ => .isFalse (by intro hc; cases hc)

/-- First-match lookup in an association list, as substrate storage get. -/
def lookupA {α β : Type} [DecidableEq α] : List (α × β) → α → Option β
| [], _ => none
| e :: t, k => if e.1 = k then some e.2 else lookupA t k

/-- Insert-or-overwrite on an association list, as substrate storage insert. -/
def insertA {α β : Type} [DecidableEq α] : List (α × β) → α → β → List (α × β)
| [], k, v => [(k, v)]
| e :: t, k, v => if e.1 = k then (k, v) :: t else e :: insertA t k v

/-- Sum of the values stored under keys satisfying a predicate. -/
def sumKeys {α : Type} : List (α × Nat) → (α → Bool) → Nat
| [], _ => 0
| e :: t, p => (if p e.1 then e.2 else 0) + sumKeys t p

/-- The keys of an association list. -/
def keysOf {α β : Type} (l : List (α × β)) : List α := l.map Prod.fst

/-- Modulus of the 128-bit unsigned integers used for balances, supplies
and (per the spec, which leaves the width opaque) asset ids. -/
def U : Nat := 2 ^ 128

/-- Rust u128 saturating addition: clamps at u128 maximum. -/
def satAdd (x y : Nat) : Nat := min (x + y) (U - 1)

/-- Dispatch origin of an extrinsic (frame_system RawOrigin). -/
inductive Origin : Type
| signed (who : Nat)
| root
| unsigned
deriving DecidableEq, Repr

namespace Assets

/-- Per-asset aggregate record of the fungible pallet. -/
structure AssetDetails : Type where
  owner : Nat
  supply : Nat
deriving DecidableEq, Repr

/-- Modelled from the spec: types.rs of ex01-fungible-token is not under
src/; spec section 4.4 create inserts AssetDetails with owner = caller and
supply = 0. -/
def AssetDetails.new (owner : Nat) : AssetDetails := ⟨owner, 0⟩

/-- Metadata record of the fungible pallet: name and symbol byte strings. -/
structure AssetMetadata : Type where
  name : List Nat
  symbol : List Nat
deriving DecidableEq, Repr

/-- The fungible pallet storage: Asset, Account, Metadata maps and Nonce. -/
structure State : Type where
  asset : List (Nat × AssetDetails)
  account : List ((Nat × Nat) × Nat)
  metadata : List (Nat × AssetMetadata)
  nonce : Nat
deriving DecidableEq, Repr

/-- The empty genesis storage. -/
def genesis : State := ⟨[], [], [], 0⟩

/-- The fungible pallet error enum (lib.rs lines 105-111): exactly the
variants UnknownAssetId and NoPermission. -/
inductive Error : Type
| UnknownAssetId
| NoPermission
deriving DecidableEq, Repr

/-- A dispatch-level failure: a bad origin (ensure_signed), a failure to
decode a BoundedVec argument longer than MaxLength, or a pallet error. -/
inductive CallError : Type
| BadOrigin
| DecodeFailed
| Pallet (e : Error)
deriving DecidableEq, Repr

/-- Events of the fungible pallet. -/
inductive Event : Type
| Created (owner : Nat) (asset_id : Nat)
| MetadataSet (asset_id : Nat) (name : List Nat) (symbol : List Nat)
| Minted (asset_id : Nat) (owner : Nat) (total_supply : Nat)
| Burned (asset_id : Nat) (owner : Nat) (total_supply : Nat)
| Transferred (asset_id : Nat) (from_ : Nat) (dest : Nat) (amount : Nat)
deriving DecidableEq, Repr

/-- Balance of an account for an asset; absent entries read as zero. -/
def getBal (s : State) (asset_id who : Nat) : Nat :=
  (lookupA s.account (asset_id, who)).getD 0

/-- Sum of all balances recorded for one asset id. -/
def sumFor (l : List ((Nat × Nat) × Nat)) (a : Nat) : Nat :=
  sumKeys l (fun k => k.1 == a)

/-- Pallet::create (lib.rs 119-134): allocates the nonce as id, inserts a
fresh AssetDetails, advances the nonce with saturating_add 1. -/
def create (s : State) (origin : Origin) : State × Except CallError Event :=
  match origin with
  | .signed who =>
    let id := s.nonce
    let details := AssetDetails.new who
    let s1 : State :=
      { s with asset := insertA s.asset id details, nonce := satAdd s.nonce 1 }
    (s1, .ok (.Created who id))
  | _ => (s, .error .BadOrigin)

/-- Pallet::set_metadata (lib.rs 137-165), after argument decoding:
requires a signed origin and that the caller owns the asset
(ensure_is_owner, lib.rs 295-300), then overwrites the Metadata record. -/
def set_metadata (s : State) (origin : Origin) (asset_id : Nat)
    (name symbol : List Nat) : State × Except CallError Event :=
  match origin with
  | .signed caller =>
    match lookupA s.asset asset_id with
    | none => (s, .error (.Pallet .UnknownAssetId))
    | some details =>
      if details.owner = caller then
        ({ s with metadata := insertA s.metadata asset_id ⟨name, symbol⟩ },
         .ok (.MetadataSet asset_id name symbol))
      else (s, .error (.Pallet .NoPermission))
  | _ => (s, .error .BadOrigin)

/-- The dispatch boundary of set_metadata: its name and symbol arguments
are BoundedVec u8 MaxLength (lib.rs 140-141), so a value longer than
MaxLength fails to decode and the call is rejected before the pallet
body runs. -/
def set_metadata_checked (maxLen : Nat) (s : State) (origin : Origin)
    (asset_id : Nat) (name symbol : List Nat) : State × Except CallError Event :=
  if name.length ≤ maxLen ∧ symbol.length ≤ maxLen then
    set_metadata s origin asset_id name symbol
  else (s, .error .DecodeFailed)

/-- Pallet::mint (lib.rs 168-206): requires signed origin, existing asset
and caller = owner; saturating-adds amount to supply, credits the actually
minted difference to the recipient with a (wrapping) u128 addition, and
emits Minted with the new total supply. -/
def mint (s : State) (origin : Origin) (asset_id amount dest : Nat) :
    State × Except CallError Event :=
  match origin with
  | .signed caller =>
    match lookupA s.asset asset_id with
    | none => (s, .error (.Pallet .UnknownAssetId))
    | some details =>
      if details.owner = caller then
        let newSupply := satAdd details.supply amount
        let minted := newSupply - details.supply
        let s1 : State :=
          { s with asset := insertA s.asset asset_id { details with supply := newSupply } }
        let oldBal := getBal s1 asset_id dest
        let s2 : State :=
          { s1 with account := insertA s1.account (asset_id, dest) ((oldBal + minted) % U) }
        (s2, .ok (.Minted asset_id dest newSupply))
      else (s, .error (.Pallet .NoPermission))
  | _ => (s, .error .BadOrigin)

/-- Pallet::burn (lib.rs 209-245): requires signed origin and existing
asset; saturating-subtracts amount from the caller's balance, then
saturating-subtracts the actually burnt difference from the supply. -/
def burn (s : State) (origin : Origin) (asset_id amount : Nat) :
    State × Except CallError Event :=
  match origin with
  | .signed caller =>
    if (lookupA s.asset asset_id).isSome then
      let oldBal := getBal s asset_id caller
      let newBal := oldBal - amount
      let burnt := oldBal - newBal
      let s1 : State :=
        { s with account := insertA s.account (asset_id, caller) newBal }
      match lookupA s1.asset asset_id with
      | none => (s1, .error (.Pallet .UnknownAssetId))
      | some details =>
        let s2 : State :=
          { s1 with asset := insertA s1.asset asset_id { details with supply := details.supply - burnt } }
        (s2, .ok (.Burned asset_id caller (details.supply - burnt)))
    else (s, .error (.Pallet .UnknownAssetId))
  | _ => (s, .error .BadOrigin)

/-- Pallet::transfer (lib.rs 248-287): requires signed origin and existing
asset; saturating-subtracts amount from the sender, saturating-adds the
actually moved difference to the recipient (reading the recipient balance
after the debit, so a self-transfer is a no-op), and emits Transferred
with the amount actually credited. -/
def transfer (s : State) (origin : Origin) (asset_id amount dest : Nat) :
    State × Except CallError Event :=
  match origin with
  | .signed from_ =>
    if (lookupA s.asset asset_id).isSome then
      let oldFrom := getBal s asset_id from_
      let newFrom := oldFrom - amount
      let moved := oldFrom - newFrom
      let s1 : State :=
        { s with account := insertA s.account (asset_id, from_) newFrom }
      let oldTo := getBal s1 asset_id dest
      let newTo := satAdd oldTo moved
      let transferred := newTo - oldTo
      let s2 : State :=
        { s1 with account := insertA s1.account (asset_id, dest) newTo }
      (s2, .ok (.Transferred asset_id from_ dest transferred))
    else (s, .error (.Pallet .UnknownAssetId))
  | _ => (s, .error .BadOrigin)

/-- The dispatchable calls of the fungible pallet. -/
inductive Op : Type
| create (origin : Origin)
| setMetadata (origin : Origin) (asset_id : Nat) (name symbol : List Nat)
| mint (origin : Origin) (asset_id amount dest : Nat)
| burn (origin : Origin) (asset_id amount : Nat)
| transfer (origin : Origin) (asset_id amount dest : Nat)
deriving DecidableEq, Repr

/-- Whether an operation is a create (the only nonce-advancing call). -/
def Op.isCreate : Op → Bool
| .create _ => true
| _ => false

/-- Dispatch one call against the storage. -/
def applyOp (maxLen : Nat) (s : State) : Op → State × Except CallError Event
| .create o => create s o
| .setMetadata o id n sy => set_metadata_checked maxLen s o id n sy
| .mint o id amt dst => mint s o id amt dst
| .burn o id amt => burn s o id amt
| .transfer o id amt dst => transfer s o id amt dst

/-- Run a sequence of calls, keeping the storage each call returns. -/
def run (maxLen : Nat) (s : State) (ops : List Op) : State :=
  ops.foldl (fun st op => (applyOp maxLen st op).1) s

/-- Whether every call in a sequence succeeds. -/
def allOk (maxLen : Nat) (s : State) : List Op → Bool
| [] => true
| op :: t =>
  match applyOp maxLen s op with
  | (s1, .ok _) => allOk maxLen s1 t
  | (_, .error _) => false

/-- Well-formedness and the conservation invariant of a fungible storage
state: asset and account keys are without duplicates, every recorded asset
has supply equal to the sum of the balances under its id, supplies fit in
u128, asset ids are below the nonce, and balances recorded under an
unknown asset id are zero. -/
def Consistent (s : State) : Prop :=
  (keysOf s.asset).Nodup ∧ (keysOf s.account).Nodup ∧
  (∀ e ∈ s.asset, e.2.supply = sumFor s.account e.1 ∧ e.2.supply < U ∧ e.1 < s.nonce) ∧
  (∀ e ∈ s.account, e.2 = 0 ∨ (lookupA s.asset e.1.1).isSome = true)

/-- The conservation property of the spec alone: every recorded asset has
supply equal to the sum of the balances recorded under its id. -/
def Conserves (s : State) : Prop :=
  ∀ e ∈ s.asset, e.2.supply = sumFor s.account e.1

end Assets

namespace Nft

/-- Per-asset record of the unique-assets pallet: owner, metadata blob,
supply. -/
structure UniqueAssetDetails : Type where
  owner : Nat
  metadata : List Nat
  supply : Nat
deriving DecidableEq, Repr

/-- Modelled from the spec: types.rs of ex03-nft is not under src/; spec
section 3 gives the unique-asset record as owner, supply and a metadata
blob, so the constructor stores its three arguments. -/
def UniqueAssetDetails.new (owner : Nat) (metadata : List Nat) (supply : Nat) :
    UniqueAssetDetails := ⟨owner, metadata, supply⟩

/-- The unique-assets pallet storage: UniqueAsset and Account maps and
Nonce. -/
structure State : Type where
  uniqueAsset : List (Nat × UniqueAssetDetails)
  account : List ((Nat × Nat) × Nat)
  nonce : Nat
deriving DecidableEq, Repr

/-- The empty genesis storage. -/
def genesis : State := ⟨[], [], 0⟩

/-- The unique-assets pallet error enum (lib.rs 79-87). -/
inductive Error : Type
| UnknownAssetId
| NotOwned
| NoSupply
deriving DecidableEq, Repr

/-- A dispatch-level failure: bad origin or pallet error. -/
inductive CallError : Type
| BadOrigin
| Pallet (e : Error)
deriving DecidableEq, Repr

/-- Events of the unique-assets pallet. -/
inductive Event : Type
| Created (creator : Nat) (asset_id : Nat)
| Burned (asset_id : Nat) (owner : Nat) (total_supply : Nat)
| Transferred (asset_id : Nat) (from_ : Nat) (dest : Nat) (amount : Nat)
deriving DecidableEq, Repr

/-- Balance of an account for a unique asset; absent entries read zero. -/
def getBal (s : State) (asset_id who : Nat) : Nat :=
  (lookupA s.account (asset_id, who)).getD 0

/-- Pallet::mint (lib.rs 92-117): requires signed origin and supply > 0;
allocates the nonce as id, advances the nonce by plain (wrapping) + 1,
inserts the asset record, and sets the creator's balance to supply with
Account::insert. -/
def mint (s : State) (origin : Origin) (metadata : List Nat) (supply : Nat) :
    State × Except CallError Event :=
  match origin with
  | .signed owner =>
    if supply > 0 then
      let asset_id := s.nonce
      let details := UniqueAssetDetails.new owner metadata supply
      let s1 : State :=
        { s with
          nonce := (asset_id + 1) % U,
          uniqueAsset := insertA s.uniqueAsset asset_id details,
          account := insertA s.account (asset_id, owner) supply }
      (s1, .ok (.Created owner asset_id))
    else (s, .error (.Pallet .NoSupply))
  | _ => (s, .error .BadOrigin)

/-- Pallet::burn (lib.rs 120-164): requires signed origin, an existing
asset and a strictly positive caller balance; saturating-subtracts amount
from the balance and the actually burnt difference from the supply. -/
def burn (s : State) (origin : Origin) (asset_id amount : Nat) :
    State × Except CallError Event :=
  match origin with
  | .signed owner =>
    if (lookupA s.uniqueAsset asset_id).isSome then
      if getBal s asset_id owner > 0 then
        let oldBal := getBal s asset_id owner
        let newBal := oldBal - amount
        let burnt := oldBal - newBal
        let s1 : State :=
          { s with account := insertA s.account (asset_id, owner) newBal }
        match lookupA s1.uniqueAsset asset_id with
        | none => (s1, .error (.Pallet .UnknownAssetId))
        | some details =>
          let s2 : State :=
            { s1 with uniqueAsset := (insertA s1.uniqueAsset asset_id { details with supply := details.supply - burnt }) }
          (s2, .ok (.Burned asset_id owner (details.supply - burnt)))
      else (s, .error (.Pallet .NotOwned))
    else (s, .error (.Pallet .UnknownAssetId))
  | _ => (s, .error .BadOrigin)

/-- Pallet::transfer (lib.rs 167-204): requires signed origin, an existing
asset and a strictly positive sender balance; saturating-subtracts amount
from the sender and credits the moved difference to the recipient with a
(wrapping) u128 addition; the emitted amount is the debited difference. -/
def transfer (s : State) (origin : Origin) (asset_id amount dest : Nat) :
    State × Except CallError Event :=
  match origin with
  | .signed from_ =>
    if (lookupA s.uniqueAsset asset_id).isSome then
      if getBal s asset_id from_ > 0 then
        let oldFrom := getBal s asset_id from_
        let newFrom := oldFrom - amount
        let moved := oldFrom - newFrom
        let s1 : State :=
          { s with account := insertA s.account (asset_id, from_) newFrom }
        let oldTo := getBal s1 asset_id dest
        let s2 : State :=
          { s1 with account := insertA s1.account (asset_id, dest) ((oldTo + moved) % U) }
        (s2, .ok (.Transferred asset_id from_ dest moved))
      else (s, .error (.Pallet .NotOwned))
    else (s, .error (.Pallet .UnknownAssetId))
  | _ => (s, .error .BadOrigin)

/-- The dispatchable calls of the unique-assets pallet. -/
inductive Op : Type
| mint (origin : Origin) (metadata : List Nat) (supply : Nat)
| burn (origin : Origin) (asset_id amount : Nat)
| transfer (origin : Origin) (asset_id amount dest : Nat)
deriving DecidableEq, Repr

/-- Whether an operation is a mint (the only nonce-advancing call). -/
def Op.isMint : Op → Bool
| .mint _ _ _ => true
| _ => false

/-- Dispatch one call against the storage. -/
def applyOp (s : State) : Op → State × Except CallError Event
| .mint o m sup => mint s o m sup
| .burn o id amt => burn s o id amt
| .transfer o id amt dst => transfer s o id amt dst

/-- Run a sequence of calls, keeping the storage each call returns. -/
def run (s : State) (ops : List Op) : State :=
  ops.foldl (fun st op => (applyOp st op).1) s

/-- Whether every call in a sequence succeeds. -/
def allOk (s : State) : List Op → Bool
| [] => true
| op :: t =>
  match applyOp s op with
  | (s1, .ok _) => allOk s1 t
  | (_, .error _) => false

/-- Well-formedness and the conservation invariant of a unique-assets
storage state, as for the fungible pallet. -/
def Consistent (s : State) : Prop :=
  (keysOf s.uniqueAsset).Nodup ∧ (keysOf s.account).Nodup ∧
  (∀ e ∈ s.uniqueAsset,
    e.2.supply = Assets.sumFor s.account e.1 ∧ e.2.supply < U ∧ e.1 < s.nonce) ∧
  (∀ e ∈ s.account, e.2 = 0 ∨ (lookupA s.uniqueAsset e.1.1).isSome = true)

/-- The conservation property alone for the unique-assets pallet. -/
def Conserves (s : State) : Prop :=
  ∀ e ∈ s.uniqueAsset, e.2.supply = Assets.sumFor s.account e.1

end Nft

example : (Nft.mint Nft.genesis (.signed 3) [9] 0).2 = .error (.Pallet .NoSupply) := by
  decide

example :
    Nft.getBal (Nft.run Nft.genesis
      [.mint (.signed 3) [9] 5, .transfer (.signed 3) 0 2 4]) 0 4 = 2 := by decide

example : (Assets.create Assets.genesis (.signed 7)).2 = .ok (.Created 7 0) := by decide

/-! Lemmas about the association-list storage maps. -/

theorem lookupA_insertA {α β : Type} [DecidableEq α] (l : List (α × β)) (k k' : α) (v : β) :
    lookupA (insertA l k v) k' = if k' = k then some v else lookupA l k' := by
  induction l with
  | nil =>
    simp only [insertA, lookupA]
    by_cases h : k' = k
    · simp [h]
    · rw [if_neg (fun hh => h hh.symm), if_neg h]
  | cons e t ih =>
    simp only [insertA]
    by_cases he : e.1 = k
    · simp only [he, if_pos rfl, lookupA]
      by_cases hk : k' = k
      · simp [hk]
      · rw [if_neg (fun hh : k = k' => hk hh.symm), if_neg hk,
          if_neg (fun hh : k = k' => hk hh.symm)]
    · simp only [if_neg he, lookupA, ih]
      by_cases hk : k' = k
      · rw [if_pos hk, if_pos hk, if_neg (fun hh : e.1 = k' => he (hh.trans hk))]
      · rw [if_neg hk, if_neg hk]

theorem mem_keysOf_insertA {α β : Type} [DecidableEq α] (l : List (α × β)) (k x : α) (v : β) :
    x ∈ keysOf (insertA l k v) ↔ x ∈ keysOf l ∨ x = k := by
  induction l with
  | nil => simp [insertA, keysOf]
  | cons e t ih =>
    simp only [insertA]
    by_cases he : e.1 = k
    · rw [if_pos he]
      simp only [keysOf, List.map_cons, List.mem_cons, he]
      tauto
    · rw [if_neg he]
      simp only [keysOf, List.map_cons, List.mem_cons] at ih ⊢
      rw [ih]
      tauto

theorem keysOf_insertA_nodup {α β : Type} [DecidableEq α] {l : List (α × β)} (k : α) (v : β)
    (h : (keysOf l).Nodup) : (keysOf (insertA l k v)).Nodup := by
  induction l with
  | nil => simp [insertA, keysOf]
  | cons e t ih =>
    simp only [keysOf, List.map_cons, List.nodup_cons] at h
    simp only [insertA]
    by_cases he : e.1 = k
    · rw [if_pos he]
      simp only [keysOf, List.map_cons, List.nodup_cons]
      exact ⟨he ▸ h.1, h.2⟩
    · rw [if_neg he]
      simp only [keysOf, List.map_cons, List.nodup_cons]
      refine ⟨fun hc => ?_, ih h.2⟩
      rcases (mem_keysOf_insertA t k e.1 v).mp hc with h1 | h2
      · exact h.1 h1
      · exact he h2

theorem mem_insertA_nodup {α β : Type} [DecidableEq α] {l : List (α × β)} {k : α} {v : β}
    (h : (keysOf l).Nodup) :
    ∀ e ∈ insertA l k v, e = (k, v) ∨ (e ∈ l ∧ e.1 ≠ k) := by
  induction l with
  | nil =>
    intro e he
    simp only [insertA, List.mem_singleton] at he
    exact Or.inl he
  | cons hd t ih =>
    intro e he
    simp only [keysOf, List.map_cons, List.nodup_cons] at h
    simp only [insertA] at he
    by_cases hh : hd.1 = k
    · rw [if_pos hh] at he
      rcases List.mem_cons.mp he with h1 | h2
      · exact Or.inl h1
      · refine Or.inr ⟨List.mem_cons_of_mem _ h2, fun hk => ?_⟩
        have hmem : e.1 ∈ keysOf t := List.mem_map_of_mem Prod.fst h2
        rw [hk, ← hh] at hmem
        exact h.1 hmem
    · rw [if_neg hh] at he
      rcases List.mem_cons.mp he with h1 | h2
      · exact Or.inr ⟨h1 ▸ List.mem_cons_self hd t, h1 ▸ hh⟩
      · rcases ih h.2 e h2 with h3 | h4
        · exact Or.inl h3
        · exact Or.inr ⟨List.mem_cons_of_mem _ h4.1, h4.2⟩

theorem mem_of_lookupA {α β : Type} [DecidableEq α] {l : List (α × β)} {k : α} {v : β}
    (h : lookupA l k = some v) : (k, v) ∈ l := by
  induction l with
  | nil => simp [lookupA] at h
  | cons e t ih =>
    simp only [lookupA] at h
    by_cases he : e.1 = k
    · rw [if_pos he] at h
      have hv : e.2 = v := Option.some_injective _ h
      exact List.mem_cons.mpr (Or.inl (by rw [← he, ← hv]))
    · rw [if_neg he] at h
      exact List.mem_cons_of_mem _ (ih h)

theorem lookupA_eq_none_iff {α β : Type} [DecidableEq α] (l : List (α × β)) (k : α) :
    lookupA l k = none ↔ k ∉ keysOf l := by
  induction l with
  | nil => simp [lookupA, keysOf]
  | cons e t ih =>
    simp only [lookupA, keysOf, List.map_cons, List.mem_cons]
    by_cases he : e.1 = k
    · simp [he]
    · simp only [if_neg he, ih, keysOf]
      constructor
      · intro hn
        rintro (h1 | h2)
        · exact he h1.symm
        · exact hn h2
      · intro hn
        exact fun h2 => hn (Or.inr h2)

theorem lookupA_isSome_iff {α β : Type} [DecidableEq α] (l : List (α × β)) (k : α) :
    (lookupA l k).isSome = true ↔ k ∈ keysOf l := by
  rcases ho : lookupA l k with _ | v
  · simpa using (lookupA_eq_none_iff l k).mp ho
  · simp only [Option.isSome_some, true_iff]
    by_contra hc
    rw [(lookupA_eq_none_iff l k).mpr hc] at ho
    cases ho

theorem sumKeys_insertA {α : Type} [DecidableEq α] (l : List (α × Nat)) (k : α) (v : Nat)
    (p : α → Bool) :
    sumKeys (insertA l k v) p + (if p k then (lookupA l k).getD 0 else 0) =
      sumKeys l p + (if p k then v else 0) := by
  induction l with
  | nil => simp [insertA, sumKeys, lookupA]
  | cons e t ih =>
    simp only [insertA]
    by_cases he : e.1 = k
    · rw [if_pos he]
      by_cases hp : p k
      · simp only [sumKeys, lookupA, if_pos he, he, hp, ite_true, Option.getD_some]
        omega
      · simp only [sumKeys, lookupA, if_pos he, he, hp, Bool.false_eq_true, ite_false,
          Option.getD_some]
    · rw [if_neg he]
      simp only [sumKeys, lookupA, if_neg he]
      omega

theorem lookupA_getD_le_sumKeys {α : Type} [DecidableEq α] (l : List (α × Nat)) (k : α)
    (p : α → Bool) (hp : p k = true) : (lookupA l k).getD 0 ≤ sumKeys l p := by
  induction l with
  | nil => simp [lookupA, sumKeys]
  | cons e t ih =>
    simp only [lookupA, sumKeys]
    by_cases he : e.1 = k
    · rw [if_pos he, he, hp]
      simp only [Option.getD_some, if_pos]
      omega
    · rw [if_neg he]
      by_cases hq : p e.1 <;> simp only [hq, ite_true, ite_false] <;> omega

theorem lookupA_getD_pair_le_sumKeys {α : Type} [DecidableEq α] (l : List (α × Nat))
    (k k' : α) (p : α → Bool) (hk : k ≠ k') (hp : p k = true) (hp' : p k' = true) :
    (lookupA l k).getD 0 + (lookupA l k').getD 0 ≤ sumKeys l p := by
  induction l with
  | nil => simp [lookupA, sumKeys]
  | cons e t ih =>
    simp only [lookupA, sumKeys]
    by_cases he : e.1 = k
    · rw [if_pos he, if_neg (fun hh : e.1 = k' => hk (he.symm.trans hh)), he, hp]
      have := lookupA_getD_le_sumKeys t k' p hp'
      simp only [Option.getD_some, if_pos]
      omega
    · rw [if_neg he]
      by_cases he' : e.1 = k'
      · rw [if_pos he', he', hp']
        have := lookupA_getD_le_sumKeys t k p hp
        simp only [Option.getD_some, if_pos]
        omega
      · rw [if_neg he']
        by_cases hq : p e.1 <;> simp only [hq, ite_true, ite_false] <;> omega

theorem sumKeys_eq_zero {α : Type} (l : List (α × Nat)) (p : α → Bool)
    (h : ∀ e ∈ l, p e.1 = true → e.2 = 0) : sumKeys l p = 0 := by
  induction l with
  | nil => simp [sumKeys]
  | cons e t ih =>
    simp only [sumKeys]
    have h2 := ih (fun x hx => h x (List.mem_cons_of_mem _ hx))
    by_cases hq : p e.1
    · rw [if_pos hq, h e (List.mem_cons_self e t) hq, h2]
    · rw [if_neg hq, h2]

/-! Specializations of the sum lemmas to the double-map balance stores. -/

theorem sumFor_insertA_same (l : List ((Nat × Nat) × Nat)) (a w v : Nat) :
    Assets.sumFor (insertA l (a, w) v) a + (lookupA l (a, w)).getD 0 =
      Assets.sumFor l a + v := by
  have h := sumKeys_insertA l (a, w) v (fun k => k.1 == a)
  simpa [Assets.sumFor] using h

theorem sumFor_insertA_other (l : List ((Nat × Nat) × Nat)) (a b w v : Nat) (h : b ≠ a) :
    Assets.sumFor (insertA l (b, w) v) a = Assets.sumFor l a := by
  have hs := sumKeys_insertA l (b, w) v (fun k => k.1 == a)
  simpa [Assets.sumFor, h] using hs

theorem getD_le_sumFor (l : List ((Nat × Nat) × Nat)) (a w : Nat) :
    (lookupA l (a, w)).getD 0 ≤ Assets.sumFor l a := by
  have h := lookupA_getD_le_sumKeys l (a, w) (fun k => k.1 == a) (by simp)
  simpa [Assets.sumFor] using h

theorem getD_pair_le_sumFor (l : List ((Nat × Nat) × Nat)) (a w w' : Nat) (h : w ≠ w') :
    (lookupA l (a, w)).getD 0 + (lookupA l (a, w')).getD 0 ≤ Assets.sumFor l a := by
  have hp := lookupA_getD_pair_le_sumKeys l (a, w) (a, w') (fun k => k.1 == a)
    (by simp [h]) (by simp) (by simp)
  simpa [Assets.sumFor] using hp

theorem sumFor_eq_zero (l : List ((Nat × Nat) × Nat)) (a : Nat)
    (h : ∀ e ∈ l, e.1.1 = a → e.2 = 0) : Assets.sumFor l a = 0 := by
  have hz := sumKeys_eq_zero l (fun k => k.1 == a) (by intro e he hp; exact h e he (by simpa using hp))
  simpa [Assets.sumFor] using hz

/-! Arithmetic helpers for the saturating u128 operations. -/

theorem satAdd_lt_U (x y : Nat) : satAdd x y < U := by
  unfold satAdd U
  omega

theorem le_satAdd_left (x y : Nat) (h : x < U) : x ≤ satAdd x y := by
  have hU : U = 2 ^ 128 := rfl
  unfold satAdd
  omega

/-! Branch equations for the fungible pallet calls. -/

namespace Assets

theorem create_eq (s : State) (who : Nat) :
    create s (.signed who) =
      ({ s with asset := insertA s.asset s.nonce ⟨who, 0⟩, nonce := satAdd s.nonce 1 },
       .ok (.Created who s.nonce)) := rfl

theorem mint_ok_eq (s : State) (caller asset_id amount dest : Nat)
    (details : AssetDetails) (hl : lookupA s.asset asset_id = some details)
    (hown : details.owner = caller) :
    mint s (.signed caller) asset_id amount dest =
      ({ s with
          asset := insertA s.asset asset_id { details with supply := satAdd details.supply amount },
          account := insertA s.account (asset_id, dest)
            (((lookupA s.account (asset_id, dest)).getD 0 +
              (satAdd details.supply amount - details.supply)) % U) },
       .ok (.Minted asset_id dest (satAdd details.supply amount))) := by
  simp only [mint, hl, getBal, if_pos hown]

theorem mint_no_permission_eq (s : State) (caller asset_id amount dest : Nat)
    (details : AssetDetails) (hl : lookupA s.asset asset_id = some details)
    (hown : details.owner ≠ caller) :
    mint s (.signed caller) asset_id amount dest = (s, .error (.Pallet .NoPermission)) := by
  simp only [mint, hl, if_neg hown]

theorem burn_ok_eq (s : State) (caller asset_id amount : Nat)
    (details : AssetDetails) (hl : lookupA s.asset asset_id = some details) :
    burn s (.signed caller) asset_id amount =
      ({ s with
          account := insertA s.account (asset_id, caller) (getBal s asset_id caller - amount),
          asset := insertA s.asset asset_id
            { details with supply :=
                details.supply -
                  (getBal s asset_id caller - (getBal s asset_id caller - amount)) } },
       .ok (.Burned asset_id caller
         (details.supply -
           (getBal s asset_id caller - (getBal s asset_id caller - amount))))) := by
  simp only [burn, hl, Option.isSome_some, if_pos]

theorem transfer_ok_eq (s : State) (from_ asset_id amount dest : Nat)
    (details : AssetDetails) (hl : lookupA s.asset asset_id = some details) :
    transfer s (.signed from_) asset_id amount dest =
      (let oldFrom := getBal s asset_id from_
       let account1 := insertA s.account (asset_id, from_) (oldFrom - amount)
       let oldTo := (lookupA account1 (asset_id, dest)).getD 0
       ({ s with account := (insertA account1 (asset_id, dest) (satAdd oldTo (oldFrom - (oldFrom - amount)))) },
        .ok (.Transferred asset_id from_ dest
          (satAdd oldTo (oldFrom - (oldFrom - amount)) - oldTo)))) := by
  simp only [transfer, hl, Option.isSome_some, if_pos, getBal]

end Assets

theorem U_pos : 0 < U := by
  unfold U
  omega

theorem satAdd_le_add (x y : Nat) : satAdd x y ≤ x + y := by
  unfold satAdd
  omega

theorem satAdd_eq_add (x y : Nat) (h : x + y < U) : satAdd x y = x + y := by
  have hU : U = 2 ^ 128 := rfl
  unfold satAdd
  omega

namespace Assets

theorem getBal_eq (s : State) (a w : Nat) :
    getBal s a w = (lookupA s.account (a, w)).getD 0 := rfl

/-- Consistency only looks at the asset map, the account map and the
nonce. -/
theorem consistent_of_eq (s s' : State) (ha : s'.asset = s.asset)
    (hb : s'.account = s.account) (hn : s'.nonce = s.nonce) (h : Consistent s) :
    Consistent s' := by
  unfold Consistent at h ⊢
  rw [ha, hb, hn]
  exact h

theorem consistent_create (s : State) (o : Origin) (h : Consistent s)
    (hn : s.nonce + 1 < U) : Consistent (create s o).1 := by
  cases o with
  | root => exact h
  | unsigned => exact h
  | signed who =>
    obtain ⟨hA, hB, h1, h2⟩ := h
    rw [create_eq]
    refine ⟨keysOf_insertA_nodup _ _ hA, hB, ?_, ?_⟩
    · intro e he
      rcases mem_insertA_nodup hA e he with h3 | ⟨h4, h5⟩
      · subst h3
        refine ⟨?_, ?_, ?_⟩
        · show (0 : Nat) = sumFor s.account s.nonce
          symm
          apply sumFor_eq_zero
          intro x hx hxk
          rcases h2 x hx with h6 | h6
          · exact h6
          · exfalso
            rw [lookupA_isSome_iff] at h6
            rw [hxk] at h6
            obtain ⟨y, hy, hyk⟩ := List.mem_map.mp h6
            have h7 := (h1 y hy).2.2
            omega
        · exact U_pos
        · show s.nonce < satAdd s.nonce 1
          rw [satAdd_eq_add _ _ hn]
          omega
      · refine ⟨(h1 e h4).1, (h1 e h4).2.1, ?_⟩
        show e.1 < satAdd s.nonce 1
        rw [satAdd_eq_add _ _ hn]
        have := (h1 e h4).2.2
        omega
    · intro e he
      rcases h2 e he with h3 | h3
      · exact Or.inl h3
      · refine Or.inr ?_
        show (lookupA (insertA s.asset s.nonce ⟨who, 0⟩) e.1.1).isSome = true
        rw [lookupA_insertA]
        by_cases hk : e.1.1 = s.nonce
        · rw [if_pos hk]
          rfl
        · rw [if_neg hk]
          exact h3

theorem set_metadata_checked_components (maxLen : Nat) (s : State) (o : Origin)
    (asset_id : Nat) (n sy : List Nat) :
    (set_metadata_checked maxLen s o asset_id n sy).1.asset = s.asset ∧
    (set_metadata_checked maxLen s o asset_id n sy).1.account = s.account ∧
    (set_metadata_checked maxLen s o asset_id n sy).1.nonce = s.nonce := by
  by_cases hlen : n.length ≤ maxLen ∧ sy.length ≤ maxLen
  · cases o with
    | root => simp [set_metadata_checked, set_metadata, hlen]
    | unsigned => simp [set_metadata_checked, set_metadata, hlen]
    | signed caller =>
      rcases hl : lookupA s.asset asset_id with _ | d
      · simp [set_metadata_checked, set_metadata, hlen, hl]
      · by_cases hown : d.owner = caller
        · simp [set_metadata_checked, set_metadata, hlen, hl, hown]
        · simp [set_metadata_checked, set_metadata, hlen, hl, hown]
  · simp [set_metadata_checked, hlen]

theorem consistent_set_metadata_checked (maxLen : Nat) (s : State) (o : Origin)
    (asset_id : Nat) (n sy : List Nat) (h : Consistent s) :
    Consistent (set_metadata_checked maxLen s o asset_id n sy).1 := by
  obtain ⟨ha, hb, hn⟩ := set_metadata_checked_components maxLen s o asset_id n sy
  exact consistent_of_eq s _ ha hb hn h

end Assets

theorem lookupA_of_mem_nodup {α β : Type} [DecidableEq α] {l : List (α × β)}
    (h : (keysOf l).Nodup) {e : α × β} (he : e ∈ l) : lookupA l e.1 = some e.2 := by
  induction l with
  | nil => cases he
  | cons hd t ih =>
    simp only [keysOf, List.map_cons, List.nodup_cons] at h
    rcases List.mem_cons.mp he with h1 | h2
    · subst h1
      simp [lookupA]
    · have hne : hd.1 ≠ e.1 := by
        intro hc
        exact h.1 (hc ▸ List.mem_map_of_mem Prod.fst h2)
      simp only [lookupA, if_neg hne]
      exact ih h.2 h2

namespace Assets

theorem consistent_mint (s : State) (o : Origin) (asset_id amount dest : Nat)
    (h : Consistent s) : Consistent (mint s o asset_id amount dest).1 := by
  cases o with
  | root => exact h
  | unsigned => exact h
  | signed caller =>
    rcases hl : lookupA s.asset asset_id with _ | details
    · simp only [mint, hl]
      exact h
    · by_cases hown : details.owner = caller
      · rw [mint_ok_eq s caller asset_id amount dest details hl hown]
        obtain ⟨hA, hB, h1, h2⟩ := h
        have hmem : (asset_id, details) ∈ s.asset := mem_of_lookupA hl
        obtain ⟨hsum, hsupU, hklt⟩ := h1 _ hmem
        dsimp only at hsum hsupU hklt
        have hoble : (lookupA s.account (asset_id, dest)).getD 0 ≤ sumFor s.account asset_id :=
          getD_le_sumFor _ _ _
        have hnsU : satAdd details.supply amount < U := satAdd_lt_U _ _
        have hsle : details.supply ≤ satAdd details.supply amount :=
          le_satAdd_left _ _ hsupU
        have hmod : ((lookupA s.account (asset_id, dest)).getD 0 +
            (satAdd details.supply amount - details.supply)) % U =
            (lookupA s.account (asset_id, dest)).getD 0 +
            (satAdd details.supply amount - details.supply) := by
          apply Nat.mod_eq_of_lt
          omega
        rw [hmod]
        have hS := sumFor_insertA_same s.account asset_id dest
          ((lookupA s.account (asset_id, dest)).getD 0 +
            (satAdd details.supply amount - details.supply))
        refine ⟨keysOf_insertA_nodup _ _ hA, keysOf_insertA_nodup _ _ hB, ?_, ?_⟩
        · intro e he
          rcases mem_insertA_nodup hA e he with h3 | ⟨h4, h5⟩
          · subst h3
            dsimp only
            refine ⟨by omega, hnsU, hklt⟩
          · have hother := sumFor_insertA_other s.account e.1 asset_id dest
              ((lookupA s.account (asset_id, dest)).getD 0 +
                (satAdd details.supply amount - details.supply))
              (fun hh => h5 hh.symm)
            dsimp only
            rw [hother]
            exact h1 e h4
        · intro e he
          rcases mem_insertA_nodup hB e he with h3 | ⟨h4, h5⟩
          · subst h3
            refine Or.inr ?_
            dsimp only
            rw [lookupA_insertA, if_pos rfl]
            rfl
          · rcases h2 e h4 with h6 | h6
            · exact Or.inl h6
            · refine Or.inr ?_
              dsimp only
              rw [lookupA_insertA]
              by_cases hk : e.1.1 = asset_id
              · rw [if_pos hk]
                rfl
              · rw [if_neg hk]
                exact h6
      · rw [mint_no_permission_eq s caller asset_id amount dest details hl hown]
        exact h

theorem consistent_burn (s : State) (o : Origin) (asset_id amount : Nat)
    (h : Consistent s) : Consistent (burn s o asset_id amount).1 := by
  cases o with
  | root => exact h
  | unsigned => exact h
  | signed caller =>
    rcases hl : lookupA s.asset asset_id with _ | details
    · simp only [burn, hl, Option.isSome_none]
      exact h
    · rw [burn_ok_eq s caller asset_id amount details hl]
      obtain ⟨hA, hB, h1, h2⟩ := h
      have hmem : (asset_id, details) ∈ s.asset := mem_of_lookupA hl
      obtain ⟨hsum, hsupU, hklt⟩ := h1 _ hmem
      dsimp only at hsum hsupU hklt
      have hble : getBal s asset_id caller ≤ sumFor s.account asset_id := by
        rw [getBal_eq]
        exact getD_le_sumFor _ _ _
      have hS := sumFor_insertA_same s.account asset_id caller
        (getBal s asset_id caller - amount)
      rw [← getBal_eq] at hS
      refine ⟨keysOf_insertA_nodup _ _ hA, keysOf_insertA_nodup _ _ hB, ?_, ?_⟩
      · intro e he
        rcases mem_insertA_nodup hA e he with h3 | ⟨h4, h5⟩
        · subst h3
          dsimp only
          refine ⟨by omega, by omega, hklt⟩
        · have hother := sumFor_insertA_other s.account e.1 asset_id caller
            (getBal s asset_id caller - amount) (fun hh => h5 hh.symm)
          dsimp only
          rw [hother]
          exact h1 e h4
      · intro e he
        rcases mem_insertA_nodup hB e he with h3 | ⟨h4, h5⟩
        · subst h3
          refine Or.inr ?_
          dsimp only
          rw [lookupA_insertA, if_pos rfl]
          rfl
        · rcases h2 e h4 with h6 | h6
          · exact Or.inl h6
          · refine Or.inr ?_
            dsimp only
            rw [lookupA_insertA]
            by_cases hk : e.1.1 = asset_id
            · rw [if_pos hk]
              rfl
            · rw [if_neg hk]
              exact h6

theorem consistent_transfer (s : State) (o : Origin) (asset_id amount dest : Nat)
    (h : Consistent s) : Consistent (transfer s o asset_id amount dest).1 := by
  cases o with
  | root => exact h
  | unsigned => exact h
  | signed from_ =>
    rcases hl : lookupA s.asset asset_id with _ | details
    · simp only [transfer, hl, Option.isSome_none]
      exact h
    · rw [transfer_ok_eq s from_ asset_id amount dest details hl]
      obtain ⟨hA, hB, h1, h2⟩ := h
      have hmem : (asset_id, details) ∈ s.asset := mem_of_lookupA hl
      obtain ⟨hsum, hsupU, hklt⟩ := h1 _ hmem
      dsimp only at hsum hsupU hklt
      dsimp only
      simp only [getBal_eq]
      have hgb : (lookupA s.account (asset_id, from_)).getD 0 ≤ sumFor s.account asset_id :=
        getD_le_sumFor _ _ _
      have hS1 := sumFor_insertA_same s.account asset_id from_
        ((lookupA s.account (asset_id, from_)).getD 0 - amount)
      have hB1 : (keysOf (insertA s.account (asset_id, from_)
          ((lookupA s.account (asset_id, from_)).getD 0 - amount))).Nodup :=
        keysOf_insertA_nodup _ _ hB
      have hold :
          (lookupA (insertA s.account (asset_id, from_)
            ((lookupA s.account (asset_id, from_)).getD 0 - amount)) (asset_id, dest)).getD 0 =
          if dest = from_ then (lookupA s.account (asset_id, from_)).getD 0 - amount
          else (lookupA s.account (asset_id, dest)).getD 0 := by
        rw [lookupA_insertA]
        by_cases hfd : dest = from_
        · rw [if_pos (by rw [hfd]), if_pos hfd]
          rfl
        · rw [if_neg (by simp [hfd]), if_neg hfd]
      have hnosat :
          (lookupA (insertA s.account (asset_id, from_)
            ((lookupA s.account (asset_id, from_)).getD 0 - amount)) (asset_id, dest)).getD 0 +
          ((lookupA s.account (asset_id, from_)).getD 0 -
            ((lookupA s.account (asset_id, from_)).getD 0 - amount)) < U := by
        rw [hold]
        by_cases hfd : dest = from_
        · rw [if_pos hfd]
          omega
        · rw [if_neg hfd]
          have hpair := getD_pair_le_sumFor s.account asset_id from_ dest
            (fun hh => hfd hh.symm)
          omega
      have hsat := satAdd_eq_add
        ((lookupA (insertA s.account (asset_id, from_)
          ((lookupA s.account (asset_id, from_)).getD 0 - amount)) (asset_id, dest)).getD 0)
        ((lookupA s.account (asset_id, from_)).getD 0 -
          ((lookupA s.account (asset_id, from_)).getD 0 - amount)) hnosat
      rw [hsat]
      have hS2 := sumFor_insertA_same
        (insertA s.account (asset_id, from_)
          ((lookupA s.account (asset_id, from_)).getD 0 - amount)) asset_id dest
        ((lookupA (insertA s.account (asset_id, from_)
          ((lookupA s.account (asset_id, from_)).getD 0 - amount)) (asset_id, dest)).getD 0 +
          ((lookupA s.account (asset_id, from_)).getD 0 -
            ((lookupA s.account (asset_id, from_)).getD 0 - amount)))
      refine ⟨hA, keysOf_insertA_nodup _ _ hB1, ?_, ?_⟩
      · intro e he
        by_cases hk : e.1 = asset_id
        · have he2 := lookupA_of_mem_nodup hA he
          rw [hk, hl] at he2
          have hed : e.2 = details := (Option.some_injective _ he2).symm
          refine ⟨?_, hed ▸ hsupU, (h1 e he).2.2⟩
          rw [hk, hed]
          dsimp only
          omega
        · have ho1 := sumFor_insertA_other s.account e.1 asset_id from_
            ((lookupA s.account (asset_id, from_)).getD 0 - amount)
            (fun hh => hk hh.symm)
          have ho2 := sumFor_insertA_other
            (insertA s.account (asset_id, from_)
              ((lookupA s.account (asset_id, from_)).getD 0 - amount)) e.1 asset_id dest
            ((lookupA (insertA s.account (asset_id, from_)
              ((lookupA s.account (asset_id, from_)).getD 0 - amount)) (asset_id, dest)).getD 0 +
              ((lookupA s.account (asset_id, from_)).getD 0 -
                ((lookupA s.account (asset_id, from_)).getD 0 - amount)))
            (fun hh => hk hh.symm)
          rw [ho2, ho1]
          exact h1 e he
      · intro e he
        rcases mem_insertA_nodup hB1 e he with h3 | ⟨h4, h5⟩
        · subst h3
          refine Or.inr ?_
          rw [show ((asset_id, dest), (lookupA (insertA s.account (asset_id, from_)
            ((lookupA s.account (asset_id, from_)).getD 0 - amount)) (asset_id, dest)).getD 0 +
            ((lookupA s.account (asset_id, from_)).getD 0 -
              ((lookupA s.account (asset_id, from_)).getD 0 - amount))).1.1 = asset_id from rfl,
            hl]
          rfl
        · rcases mem_insertA_nodup hB e h4 with h6 | ⟨h7, h8⟩
          · subst h6
            refine Or.inr ?_
            rw [show ((asset_id, from_), (lookupA s.account (asset_id, from_)).getD 0 - amount).1.1
              = asset_id from rfl, hl]
            rfl
          · rcases h2 e h7 with h9 | h9
            · exact Or.inl h9
            · exact Or.inr h9

end Assets

example :
    (Assets.mint Assets.genesis (.signed 7) 0 5 7).2 =
      .error (.Pallet .UnknownAssetId) := by decide

example :
    Assets.getBal (Assets.run 8 Assets.genesis
      [.create (.signed 7), .mint (.signed 7) 0 100 2]) 0 2 = 100 := by decide

namespace Assets

theorem mint_nonce_eq (s : State) (o : Origin) (asset_id amount dest : Nat) :
    (mint s o asset_id amount dest).1.nonce = s.nonce := by
  cases o with
  | root => rfl
  | unsigned => rfl
  | signed caller =>
    rcases hl : lookupA s.asset asset_id with _ | details
    · simp only [mint, hl]
    · by_cases hown : details.owner = caller
      · rw [mint_ok_eq s caller asset_id amount dest details hl hown]
      · rw [mint_no_permission_eq s caller asset_id amount dest details hl hown]

theorem burn_nonce_eq (s : State) (o : Origin) (asset_id amount : Nat) :
    (burn s o asset_id amount).1.nonce = s.nonce := by
  cases o with
  | root => rfl
  | unsigned => rfl
  | signed caller =>
    rcases hl : lookupA s.asset asset_id with _ | details
    · simp only [burn, hl, Option.isSome_none]
      rfl
    · rw [burn_ok_eq s caller asset_id amount details hl]

theorem transfer_nonce_eq (s : State) (o : Origin) (asset_id amount dest : Nat) :
    (transfer s o asset_id amount dest).1.nonce = s.nonce := by
  cases o with
  | root => rfl
  | unsigned => rfl
  | signed from_ =>
    rcases hl : lookupA s.asset asset_id with _ | details
    · simp only [transfer, hl, Option.isSome_none]
      rfl
    · rw [transfer_ok_eq s from_ asset_id amount dest details hl]

theorem consistent_applyOp (maxLen : Nat) (s : State) (op : Op) (h : Consistent s)
    (hc : op.isCreate = true → s.nonce + 1 < U) : Consistent (applyOp maxLen s op).1 := by
  cases op with
  | create o => exact consistent_create s o h (hc rfl)
  | setMetadata o id n sy => exact consistent_set_metadata_checked maxLen s o id n sy h
  | mint o id amt dst => exact consistent_mint s o id amt dst h
  | burn o id amt => exact consistent_burn s o id amt h
  | transfer o id amt dst => exact consistent_transfer s o id amt dst h

theorem applyOp_nonce_le (maxLen : Nat) (s : State) (op : Op) :
    (applyOp maxLen s op).1.nonce ≤ s.nonce + (if op.isCreate then 1 else 0) := by
  cases op with
  | create o =>
    cases o with
    | signed who =>
      have h := satAdd_le_add s.nonce 1
      simpa [applyOp, create_eq, Op.isCreate] using h
    | root => simp [applyOp, create, Op.isCreate]
    | unsigned => simp [applyOp, create, Op.isCreate]
  | setMetadata o id n sy =>
    have h := (set_metadata_checked_components maxLen s o id n sy).2.2
    simp [applyOp, Op.isCreate, h]
  | mint o id amt dst => simp [applyOp, Op.isCreate, mint_nonce_eq]
  | burn o id amt => simp [applyOp, Op.isCreate, burn_nonce_eq]
  | transfer o id amt dst => simp [applyOp, Op.isCreate, transfer_nonce_eq]

/-- Number of create calls in a sequence. -/
def countCreates : List Op → Nat
| [] => 0
| op :: t => (if op.isCreate then 1 else 0) + countCreates t

theorem consistent_run (maxLen : Nat) :
    ∀ (ops : List Op) (s : State), Consistent s → s.nonce + countCreates ops < U →
      Consistent (run maxLen s ops) ∧
        (run maxLen s ops).nonce ≤ s.nonce + countCreates ops := by
  intro ops
  induction ops with
  | nil =>
    intro s h hn
    exact ⟨h, Nat.le_refl _⟩
  | cons op t ih =>
    intro s h hn
    have hcnt : countCreates (op :: t) = (if op.isCreate then 1 else 0) + countCreates t := rfl
    have hc1 : Consistent (applyOp maxLen s op).1 := by
      refine consistent_applyOp maxLen s op h (fun hcr => ?_)
      rw [hcr] at hcnt
      simp only [ite_true] at hcnt
      omega
    have hnle := applyOp_nonce_le maxLen s op
    have hn1 : (applyOp maxLen s op).1.nonce + countCreates t < U := by omega
    obtain ⟨hC, hN⟩ := ih (applyOp maxLen s op).1 hc1 hn1
    refine ⟨hC, ?_⟩
    show (run maxLen (applyOp maxLen s op).1 t).nonce ≤ s.nonce + countCreates (op :: t)
    omega

theorem consistent_genesis : Consistent genesis := by
  refine ⟨List.nodup_nil, List.nodup_nil, ?_, ?_⟩
  · intro e he
    cases he
  · intro e he
    cases he

end Assets

namespace Nft

theorem getBal_eq_nft (s : State) (a w : Nat) :
    getBal s a w = (lookupA s.account (a, w)).getD 0 := rfl

theorem mint_ok_eq_nft (s : State) (owner : Nat) (m : List Nat) (sup : Nat) (hsup : 0 < sup) :
    mint s (.signed owner) m sup =
      ({ s with
          nonce := (s.nonce + 1) % U,
          uniqueAsset := insertA s.uniqueAsset s.nonce ⟨owner, m, sup⟩,
          account := insertA s.account (s.nonce, owner) sup },
       .ok (.Created owner s.nonce)) := by
  simp only [mint, if_pos hsup]
  rfl

theorem burn_ok_eq_nft (s : State) (owner asset_id amount : Nat)
    (details : UniqueAssetDetails) (hl : lookupA s.uniqueAsset asset_id = some details)
    (hb : 0 < getBal s asset_id owner) :
    burn s (.signed owner) asset_id amount =
      ({ s with
          account := insertA s.account (asset_id, owner) (getBal s asset_id owner - amount),
          uniqueAsset := insertA s.uniqueAsset asset_id
            { details with supply :=
                details.supply -
                  (getBal s asset_id owner - (getBal s asset_id owner - amount)) } },
       .ok (.Burned asset_id owner
         (details.supply -
           (getBal s asset_id owner - (getBal s asset_id owner - amount))))) := by
  simp only [burn, hl, Option.isSome_some, if_pos, if_pos hb]

theorem transfer_ok_eq_nft (s : State) (from_ asset_id amount dest : Nat)
    (details : UniqueAssetDetails) (hl : lookupA s.uniqueAsset asset_id = some details)
    (hb : 0 < getBal s asset_id from_) :
    transfer s (.signed from_) asset_id amount dest =
      (let oldFrom := getBal s asset_id from_
       let account1 := insertA s.account (asset_id, from_) (oldFrom - amount)
       let oldTo := (lookupA account1 (asset_id, dest)).getD 0
       ({ s with account := (insertA account1 (asset_id, dest) ((oldTo + (oldFrom - (oldFrom - amount))) % U)) },
        .ok (.Transferred asset_id from_ dest (oldFrom - (oldFrom - amount))))) := by
  have hb2 : (lookupA s.account (asset_id, from_)).getD 0 > 0 := hb
  simp only [transfer, hl, Option.isSome_some, if_pos, getBal, if_pos hb2]

theorem consistent_mint_nft (s : State) (o : Origin) (m : List Nat) (sup : Nat)
    (h : Consistent s) (hn : s.nonce + 1 < U) (hsup : sup < U) :
    Consistent (mint s o m sup).1 := by
  cases o with
  | root => exact h
  | unsigned => exact h
  | signed owner =>
    by_cases hpos : 0 < sup
    · rw [mint_ok_eq_nft s owner m sup hpos]
      obtain ⟨hA, hB, h1, h2⟩ := h
      have hfresh : lookupA s.uniqueAsset s.nonce = none := by
        rw [lookupA_eq_none_iff]
        intro hc
        obtain ⟨y, hy, hyk⟩ := List.mem_map.mp hc
        have h7 := (h1 y hy).2.2
        omega
      have hzero : Assets.sumFor s.account s.nonce = 0 := by
        apply sumFor_eq_zero
        intro x hx hxk
        rcases h2 x hx with h6 | h6
        · exact h6
        · exfalso
          rw [hxk, hfresh] at h6
          cases h6
      have hob : (lookupA s.account (s.nonce, owner)).getD 0 ≤ Assets.sumFor s.account s.nonce :=
        getD_le_sumFor _ _ _
      have hS := sumFor_insertA_same s.account s.nonce owner sup
      have hmodn : (s.nonce + 1) % U = s.nonce + 1 := Nat.mod_eq_of_lt hn
      rw [hmodn]
      refine ⟨keysOf_insertA_nodup _ _ hA, keysOf_insertA_nodup _ _ hB, ?_, ?_⟩
      · intro e he
        rcases mem_insertA_nodup hA e he with h3 | ⟨h4, h5⟩
        · subst h3
          dsimp only
          refine ⟨by omega, hsup, by omega⟩
        · have hother := sumFor_insertA_other s.account e.1 s.nonce owner sup
            (fun hh => h5 hh.symm)
          dsimp only
          rw [hother]
          have h7 := h1 e h4
          exact ⟨h7.1, h7.2.1, by omega⟩
      · intro e he
        rcases mem_insertA_nodup hB e he with h3 | ⟨h4, h5⟩
        · subst h3
          refine Or.inr ?_
          dsimp only
          rw [lookupA_insertA, if_pos rfl]
          rfl
        · rcases h2 e h4 with h6 | h6
          · exact Or.inl h6
          · refine Or.inr ?_
            dsimp only
            rw [lookupA_insertA]
            by_cases hk : e.1.1 = s.nonce
            · rw [if_pos hk]
              rfl
            · rw [if_neg hk]
              exact h6
    · simp only [mint, if_neg hpos]
      exact h

theorem consistent_burn_nft (s : State) (o : Origin) (asset_id amount : Nat)
    (h : Consistent s) : Consistent (burn s o asset_id amount).1 := by
  cases o with
  | root => exact h
  | unsigned => exact h
  | signed owner =>
    rcases hl : lookupA s.uniqueAsset asset_id with _ | details
    · simp only [burn, hl, Option.isSome_none]
      exact h
    · by_cases hb : 0 < getBal s asset_id owner
      · rw [burn_ok_eq_nft s owner asset_id amount details hl hb]
        obtain ⟨hA, hB, h1, h2⟩ := h
        have hmem : (asset_id, details) ∈ s.uniqueAsset := mem_of_lookupA hl
        obtain ⟨hsum, hsupU, hklt⟩ := h1 _ hmem
        dsimp only at hsum hsupU hklt
        have hble : getBal s asset_id owner ≤ Assets.sumFor s.account asset_id := by
          rw [getBal_eq_nft]
          exact getD_le_sumFor _ _ _
        have hS := sumFor_insertA_same s.account asset_id owner
          (getBal s asset_id owner - amount)
        rw [← getBal_eq_nft] at hS
        refine ⟨keysOf_insertA_nodup _ _ hA, keysOf_insertA_nodup _ _ hB, ?_, ?_⟩
        · intro e he
          rcases mem_insertA_nodup hA e he with h3 | ⟨h4, h5⟩
          · subst h3
            dsimp only
            refine ⟨by omega, by omega, hklt⟩
          · have hother := sumFor_insertA_other s.account e.1 asset_id owner
              (getBal s asset_id owner - amount) (fun hh => h5 hh.symm)
            dsimp only
            rw [hother]
            exact h1 e h4
        · intro e he
          rcases mem_insertA_nodup hB e he with h3 | ⟨h4, h5⟩
          · subst h3
            refine Or.inr ?_
            dsimp only
            rw [lookupA_insertA, if_pos rfl]
            rfl
          · rcases h2 e h4 with h6 | h6
            · exact Or.inl h6
            · refine Or.inr ?_
              dsimp only
              rw [lookupA_insertA]
              by_cases hk : e.1.1 = asset_id
              · rw [if_pos hk]
                rfl
              · rw [if_neg hk]
                exact h6
      · simp only [burn, hl, Option.isSome_some, if_pos, if_neg hb]
        exact h

theorem consistent_transfer_nft (s : State) (o : Origin) (asset_id amount dest : Nat)
    (h : Consistent s) : Consistent (transfer s o asset_id amount dest).1 := by
  cases o with
  | root => exact h
  | unsigned => exact h
  | signed from_ =>
    rcases hl : lookupA s.uniqueAsset asset_id with _ | details
    · simp only [transfer, hl, Option.isSome_none]
      exact h
    · by_cases hb : 0 < getBal s asset_id from_
      · rw [transfer_ok_eq_nft s from_ asset_id amount dest details hl hb]
        obtain ⟨hA, hB, h1, h2⟩ := h
        have hmem : (asset_id, details) ∈ s.uniqueAsset := mem_of_lookupA hl
        obtain ⟨hsum, hsupU, hklt⟩ := h1 _ hmem
        dsimp only at hsum hsupU hklt
        dsimp only
        simp only [getBal_eq_nft]
        have hgb : (lookupA s.account (asset_id, from_)).getD 0 ≤ Assets.sumFor s.account asset_id :=
          getD_le_sumFor _ _ _
        have hS1 := sumFor_insertA_same s.account asset_id from_
          ((lookupA s.account (asset_id, from_)).getD 0 - amount)
        have hB1 : (keysOf (insertA s.account (asset_id, from_)
            ((lookupA s.account (asset_id, from_)).getD 0 - amount))).Nodup :=
          keysOf_insertA_nodup _ _ hB
        have hold :
            (lookupA (insertA s.account (asset_id, from_)
              ((lookupA s.account (asset_id, from_)).getD 0 - amount)) (asset_id, dest)).getD 0 =
            if dest = from_ then (lookupA s.account (asset_id, from_)).getD 0 - amount
            else (lookupA s.account (asset_id, dest)).getD 0 := by
          rw [lookupA_insertA]
          by_cases hfd : dest = from_
          · rw [if_pos (by rw [hfd]), if_pos hfd]
            rfl
          · rw [if_neg (by simp [hfd]), if_neg hfd]
        have hnosat :
            (lookupA (insertA s.account (asset_id, from_)
              ((lookupA s.account (asset_id, from_)).getD 0 - amount)) (asset_id, dest)).getD 0 +
            ((lookupA s.account (asset_id, from_)).getD 0 -
              ((lookupA s.account (asset_id, from_)).getD 0 - amount)) < U := by
          rw [hold]
          by_cases hfd : dest = from_
          · rw [if_pos hfd]
            omega
          · rw [if_neg hfd]
            have hpair := getD_pair_le_sumFor s.account asset_id from_ dest
              (fun hh => hfd hh.symm)
            omega
        have hmod := Nat.mod_eq_of_lt hnosat
        rw [hmod]
        have hS2 := sumFor_insertA_same
          (insertA s.account (asset_id, from_)
            ((lookupA s.account (asset_id, from_)).getD 0 - amount)) asset_id dest
          ((lookupA (insertA s.account (asset_id, from_)
            ((lookupA s.account (asset_id, from_)).getD 0 - amount)) (asset_id, dest)).getD 0 +
            ((lookupA s.account (asset_id, from_)).getD 0 -
              ((lookupA s.account (asset_id, from_)).getD 0 - amount)))
        refine ⟨hA, keysOf_insertA_nodup _ _ hB1, ?_, ?_⟩
        · intro e he
          by_cases hk : e.1 = asset_id
          · have he2 := lookupA_of_mem_nodup hA he
            rw [hk, hl] at he2
            have hed : e.2 = details := (Option.some_injective _ he2).symm
            refine ⟨?_, hed ▸ hsupU, (h1 e he).2.2⟩
            rw [hk, hed]
            dsimp only
            omega
          · have ho1 := sumFor_insertA_other s.account e.1 asset_id from_
              ((lookupA s.account (asset_id, from_)).getD 0 - amount)
              (fun hh => hk hh.symm)
            have ho2 := sumFor_insertA_other
              (insertA s.account (asset_id, from_)
                ((lookupA s.account (asset_id, from_)).getD 0 - amount)) e.1 asset_id dest
              ((lookupA (insertA s.account (asset_id, from_)
                ((lookupA s.account (asset_id, from_)).getD 0 - amount)) (asset_id, dest)).getD 0 +
                ((lookupA s.account (asset_id, from_)).getD 0 -
                  ((lookupA s.account (asset_id, from_)).getD 0 - amount)))
              (fun hh => hk hh.symm)
            rw [ho2, ho1]
            exact h1 e he
        · intro e he
          rcases mem_insertA_nodup hB1 e he with h3 | ⟨h4, h5⟩
          · subst h3
            refine Or.inr ?_
            rw [show ((asset_id, dest), (lookupA (insertA s.account (asset_id, from_)
              ((lookupA s.account (asset_id, from_)).getD 0 - amount)) (asset_id, dest)).getD 0 +
              ((lookupA s.account (asset_id, from_)).getD 0 -
                ((lookupA s.account (asset_id, from_)).getD 0 - amount))).1.1 = asset_id from rfl,
              hl]
            rfl
          · rcases mem_insertA_nodup hB e h4 with h6 | ⟨h7, h8⟩
            · subst h6
              refine Or.inr ?_
              rw [show ((asset_id, from_), (lookupA s.account (asset_id, from_)).getD 0 - amount).1.1
                = asset_id from rfl, hl]
              rfl
            · rcases h2 e h7 with h9 | h9
              · exact Or.inl h9
              · exact Or.inr h9
      · simp only [transfer, hl, Option.isSome_some, if_pos, if_neg hb]
        exact h

end Nft

namespace Nft

theorem burn_nonce_eq_nft (s : State) (o : Origin) (asset_id amount : Nat) :
    (burn s o asset_id amount).1.nonce = s.nonce := by
  cases o with
  | root => rfl
  | unsigned => rfl
  | signed owner =>
    rcases hl : lookupA s.uniqueAsset asset_id with _ | details
    · simp only [burn, hl, Option.isSome_none]
      rfl
    · by_cases hb : 0 < getBal s asset_id owner
      · rw [burn_ok_eq_nft s owner asset_id amount details hl hb]
      · simp only [burn, hl, Option.isSome_some, if_pos, if_neg hb]

theorem transfer_nonce_eq_nft (s : State) (o : Origin) (asset_id amount dest : Nat) :
    (transfer s o asset_id amount dest).1.nonce = s.nonce := by
  cases o with
  | root => rfl
  | unsigned => rfl
  | signed from_ =>
    rcases hl : lookupA s.uniqueAsset asset_id with _ | details
    · simp only [transfer, hl, Option.isSome_none]
      rfl
    · by_cases hb : 0 < getBal s asset_id from_
      · rw [transfer_ok_eq_nft s from_ asset_id amount dest details hl hb]
      · simp only [transfer, hl, Option.isSome_some, if_pos, if_neg hb]

/-- Whether the numeric arguments of a call fit in the u128 width they
have in the pallet's signature. -/
def Op.fitsWidth : Op → Prop
| .mint _ _ sup => sup < U
| .burn _ _ _ => True
| .transfer _ _ _ _ => True

instance (op : Op) : Decidable op.fitsWidth := by
  cases op with
  | mint o m sup => exact inferInstanceAs (Decidable (sup < U))
  | burn o id amt => exact inferInstanceAs (Decidable True)
  | transfer o id amt dst => exact inferInstanceAs (Decidable True)

theorem consistent_applyOp_nft (s : State) (op : Op) (h : Consistent s)
    (hn : op.isMint = true → s.nonce + 1 < U) (hw : op.fitsWidth) :
    Consistent (applyOp s op).1 := by
  cases op with
  | mint o m sup => exact consistent_mint_nft s o m sup h (hn rfl) hw
  | burn o id amt => exact consistent_burn_nft s o id amt h
  | transfer o id amt dst => exact consistent_transfer_nft s o id amt dst h

theorem applyOp_nonce_le_nft (s : State) (op : Op) :
    (applyOp s op).1.nonce ≤ s.nonce + (if op.isMint then 1 else 0) := by
  cases op with
  | mint o m sup =>
    cases o with
    | signed owner =>
      by_cases hpos : 0 < sup
      · rw [show applyOp s (.mint (.signed owner) m sup) = mint s (.signed owner) m sup from rfl,
          mint_ok_eq_nft s owner m sup hpos]
        have h := Nat.mod_le (s.nonce + 1) U
        simp only [Op.isMint, ite_true]
        exact Nat.le_trans (Nat.mod_le _ _) (Nat.le_refl _)
      · simp only [applyOp, mint, if_neg hpos, Op.isMint]
        omega
    | root => simp [applyOp, mint, Op.isMint]
    | unsigned => simp [applyOp, mint, Op.isMint]
  | burn o id amt => simp [applyOp, Op.isMint, burn_nonce_eq_nft]
  | transfer o id amt dst => simp [applyOp, Op.isMint, transfer_nonce_eq_nft]

/-- Number of mint calls in a sequence. -/
def countMints : List Op → Nat
| [] => 0
| op :: t => (if op.isMint then 1 else 0) + countMints t

theorem consistent_run_nft :
    ∀ (ops : List Op) (s : State), Consistent s → (∀ op ∈ ops, op.fitsWidth) →
      s.nonce + countMints ops < U →
      Consistent (run s ops) ∧ (run s ops).nonce ≤ s.nonce + countMints ops := by
  intro ops
  induction ops with
  | nil =>
    intro s h _ hn
    exact ⟨h, Nat.le_refl _⟩
  | cons op t ih =>
    intro s h hw hn
    have hcnt : countMints (op :: t) = (if op.isMint then 1 else 0) + countMints t := rfl
    have hc1 : Consistent (applyOp s op).1 := by
      refine consistent_applyOp_nft s op h (fun hcr => ?_) (hw op (List.mem_cons_self op t))
      rw [hcr] at hcnt
      simp only [ite_true] at hcnt
      omega
    have hnle := applyOp_nonce_le_nft s op
    have hn1 : (applyOp s op).1.nonce + countMints t < U := by omega
    obtain ⟨hC, hN⟩ := ih (applyOp s op).1 hc1
      (fun x hx => hw x (List.mem_cons_of_mem _ hx)) hn1
    refine ⟨hC, ?_⟩
    show (run (applyOp s op).1 t).nonce ≤ s.nonce + countMints (op :: t)
    omega

theorem consistent_genesis_nft : Consistent genesis := by
  refine ⟨List.nodup_nil, List.nodup_nil, ?_, ?_⟩
  · intro e he
    cases he
  · intro e he
    cases he

end Nft

namespace Assets

theorem conserves_of_consistent (s : State) (h : Consistent s) : Conserves s :=
  fun e he => (h.2.2.1 e he).1

theorem run_append (maxLen : Nat) (s : State) (l1 l2 : List Op) :
    run maxLen s (l1 ++ l2) = run maxLen (run maxLen s l1) l2 := by
  simp [run, List.foldl_append]

theorem run_replicate_create_account (maxLen : Nat) :
    ∀ (k : Nat) (s : State),
      (run maxLen s (List.replicate k (Op.create (.signed 0)))).account = s.account := by
  intro k
  induction k with
  | zero => intro s; rfl
  | succ n ih =>
    intro s
    rw [List.replicate_succ]
    show (run maxLen (applyOp maxLen s (Op.create (.signed 0))).1
      (List.replicate n (Op.create (.signed 0)))).account = s.account
    rw [ih]
    rfl

theorem run_replicate_create_nonce (maxLen : Nat) :
    ∀ (k : Nat) (s : State), s.nonce ≤ U - 1 →
      (run maxLen s (List.replicate k (Op.create (.signed 0)))).nonce =
        min (s.nonce + k) (U - 1) := by
  intro k
  induction k with
  | zero =>
    intro s hs
    show s.nonce = min (s.nonce + 0) (U - 1)
    omega
  | succ n ih =>
    intro s hs
    rw [List.replicate_succ]
    show (run maxLen (applyOp maxLen s (Op.create (.signed 0))).1
      (List.replicate n (Op.create (.signed 0)))).nonce = min (s.nonce + (n + 1)) (U - 1)
    have h1 : (applyOp maxLen s (Op.create (.signed 0))).1.nonce = min (s.nonce + 1) (U - 1) := rfl
    rw [ih _ (by rw [h1]; omega), h1]
    omega

theorem allOk_append (maxLen : Nat) :
    ∀ (l1 : List Op) (l2 : List Op) (s : State),
      allOk maxLen s (l1 ++ l2) =
        (allOk maxLen s l1 && allOk maxLen (run maxLen s l1) l2) := by
  intro l1
  induction l1 with
  | nil =>
    intro l2 s
    simp [allOk, run]
  | cons op t ih =>
    intro l2 s
    show allOk maxLen s (op :: (t ++ l2)) = _
    rcases happ : applyOp maxLen s op with ⟨s1, r⟩
    cases r with
    | ok ev =>
      have hl : allOk maxLen s (op :: (t ++ l2)) = allOk maxLen s1 (t ++ l2) := by
        simp only [allOk, happ]
      have hr1 : allOk maxLen s (op :: t) = allOk maxLen s1 t := by
        simp only [allOk, happ]
      have hr2 : run maxLen s (op :: t) = run maxLen s1 t := by
        show run maxLen (applyOp maxLen s op).1 t = run maxLen s1 t
        rw [happ]
      rw [hl, hr1, hr2, ih]
    | error e =>
      have hl : allOk maxLen s (op :: (t ++ l2)) = false := by
        simp only [allOk, happ]
      have hr1 : allOk maxLen s (op :: t) = false := by
        simp only [allOk, happ]
      rw [hl, hr1]
      simp

theorem allOk_replicate_create (maxLen : Nat) :
    ∀ (k : Nat) (s : State),
      allOk maxLen s (List.replicate k (Op.create (.signed 0))) = true := by
  intro k
  induction k with
  | zero => intro s; rfl
  | succ n ih =>
    intro s
    rw [List.replicate_succ]
    have h : allOk maxLen s (Op.create (.signed 0) :: List.replicate n (Op.create (.signed 0))) =
        allOk maxLen (create s (.signed 0)).1 (List.replicate n (Op.create (.signed 0))) := rfl
    rw [h]
    exact ih _

end Assets

namespace Nft

theorem conserves_of_consistent_nft (s : State) (h : Consistent s) : Conserves s :=
  fun e he => (h.2.2.1 e he).1

end Nft

instance (s : Assets.State) : Decidable (Assets.Consistent s) := by
  unfold Assets.Consistent
  infer_instance

instance (s : Assets.State) : Decidable (Assets.Conserves s) := by
  unfold Assets.Conserves
  infer_instance

instance (s : Nft.State) : Decidable (Nft.Consistent s) := by
  unfold Nft.Consistent
  infer_instance

instance (s : Nft.State) : Decidable (Nft.Conserves s) := by
  unfold Nft.Conserves
  infer_instance

/-! Claim theorems. -/

/-- C2 counterexample: the claim says fungible mint does not enforce that
the caller is the asset owner and proceeds to mutate supply instead of
failing with NoPermission; but at a concrete state whose asset 0 is owned
by account 0, a mint signed by account 1 fails with NoPermission and
leaves the state unchanged. -/
theorem mint_rejects_non_owner_example :
    Assets.mint ⟨[(0, ⟨0, 0⟩)], [], [], 1⟩ (.signed 1) 0 5 1 =
      (⟨[(0, ⟨0, 0⟩)], [], [], 1⟩, .error (.Pallet .NoPermission)) := by decide

/-- C2 (amended): fungible mint does enforce the ownership check
(lib.rs 185): for every state, every existing asset and every signed
caller that is not the asset owner, mint fails with NoPermission and the
state is unchanged. -/
theorem mint_enforces_owner (s : Assets.State) (who asset_id amount dest : Nat)
    (d : Assets.AssetDetails) (hl : lookupA s.asset asset_id = some d)
    (hown : d.owner ≠ who) :
    Assets.mint s (.signed who) asset_id amount dest =
      (s, .error (.Pallet .NoPermission)) :=
  Assets.mint_no_permission_eq s who asset_id amount dest d hl hown

/-- Witness for C2 amended theorem at a concrete state. -/
theorem mint_enforces_owner_witness :
    Assets.mint ⟨[(0, ⟨2, 7⟩)], [], [], 1⟩ (.signed 1) 0 5 1 =
      (⟨[(0, ⟨2, 7⟩)], [], [], 1⟩, .error (.Pallet .NoPermission)) :=
  mint_enforces_owner ⟨[(0, ⟨2, 7⟩)], [], [], 1⟩ 1 0 5 1 ⟨2, 7⟩ (by decide) (by decide)

/-- C7 counterexample: the claim says a set_metadata whose name or symbol
exceeds MaxLength is rejected with the TooLong error; but with MaxLength 4
and a 5-byte name, addressed to an existing asset by its owner, the call
is rejected at the argument-decode boundary with DecodeFailed, which is
none of the pallet-level errors: the fungible pallet error enum has no
TooLong variant at all (lib.rs 105-111). -/
theorem oversized_metadata_not_toolong_example :
    Assets.set_metadata_checked 4 ⟨[(0, ⟨1, 0⟩)], [], [], 1⟩ (.signed 1) 0
      [1, 2, 3, 4, 5] [] =
      (⟨[(0, ⟨1, 0⟩)], [], [], 1⟩, .error .DecodeFailed) ∧
    (Assets.CallError.DecodeFailed ≠ .Pallet .UnknownAssetId) ∧
    (Assets.CallError.DecodeFailed ≠ .Pallet .NoPermission) ∧
    (Assets.CallError.DecodeFailed ≠ .BadOrigin) := by decide

/-- C7 (amended): a set_metadata whose name or symbol byte length exceeds
MaxLength is rejected before any Metadata record is written — the whole
state is unchanged — but the rejection happens at the BoundedVec argument
decoding boundary, not with a pallet TooLong error; the fungible pallet
defines no TooLong error variant. -/
theorem oversized_metadata_rejected (maxLen : Nat) (s : Assets.State) (o : Origin)
    (asset_id : Nat) (n sy : List Nat) (h : maxLen < n.length ∨ maxLen < sy.length) :
    Assets.set_metadata_checked maxLen s o asset_id n sy = (s, .error .DecodeFailed) := by
  unfold Assets.set_metadata_checked
  rw [if_neg (by omega)]

/-- Witness for C7 amended theorem at a concrete oversized input. -/
theorem oversized_metadata_rejected_witness :
    Assets.set_metadata_checked 2 Assets.genesis (.signed 0) 0 [1, 2, 3] [] =
      (Assets.genesis, .error .DecodeFailed) :=
  oversized_metadata_rejected 2 Assets.genesis (.signed 0) 0 [1, 2, 3] []
    (Or.inl (by decide))

/-- C8: a unique-asset mint with requested supply 0 by any signed caller
fails with NoSupply and leaves the whole state — in particular the nonce,
so no AssetId is consumed — unchanged. -/
theorem nft_mint_zero_supply_fails (s : Nft.State) (who : Nat) (meta : List Nat) :
    Nft.mint s (.signed who) meta 0 = (s, .error (.Pallet .NoSupply)) := by
  simp [Nft.mint]

/-- C5 counterexample: the claim says both allocators advance the nonce
with saturating arithmetic and never wrap to zero; but the unique-asset
mint at nonce 2^128 - 1 succeeds and wraps the nonce to 0 (plain + 1,
lib.rs 103). -/
theorem nft_nonce_wraps_at_max :
    (Nft.mint ⟨[], [], U - 1⟩ (.signed 0) [] 1).2 = .ok (.Created 0 (U - 1)) ∧
    (Nft.mint ⟨[], [], U - 1⟩ (.signed 0) [] 1).1.nonce = 0 := by decide

/-- C5 (amended): the fungible create advances the nonce by one with
saturating arithmetic, clamping at the u128 maximum; the unique-asset
mint advances it by plain wrapping addition modulo 2^128, so at the
maximum it wraps to zero instead of clamping. -/
theorem nonce_advance_by_class :
    (∀ (s : Assets.State) (w : Nat),
       (Assets.create s (.signed w)).1.nonce = min (s.nonce + 1) (U - 1)) ∧
    (∀ (s : Nft.State) (w sup : Nat) (m : List Nat), 0 < sup →
       (Nft.mint s (.signed w) m sup).1.nonce = (s.nonce + 1) % U) := by
  constructor
  · intro s w
    rfl
  · intro s w sup m hpos
    rw [Nft.mint_ok_eq_nft s w m sup hpos]

/-- Witness for C5 amended theorem at concrete states. -/
theorem nonce_advance_by_class_witness :
    (Assets.create Assets.genesis (.signed 2)).1.nonce = 1 ∧
    ((0 : Nat) < 1 ∧ (Nft.mint Nft.genesis (.signed 2) [] 1).1.nonce = 1) :=
  ⟨nonce_advance_by_class.1 Assets.genesis 2,
   by decide,
   nonce_advance_by_class.2 Nft.genesis 2 1 [] (by decide)⟩

/-- C3: saturating burn — on a consistent state, for every existing
fungible asset, every signed caller and every requested amount strictly
greater than the caller's balance, burn succeeds, sets the caller's
balance to 0, and reduces the asset's supply by exactly the prior
balance (the final conjunct certifies the subtraction did not clamp). -/
theorem saturating_burn_exact (s : Assets.State) (caller asset_id amount : Nat)
    (d : Assets.AssetDetails) (hcons : Assets.Consistent s)
    (hl : lookupA s.asset asset_id = some d)
    (hgt : Assets.getBal s asset_id caller < amount) :
    (Assets.burn s (.signed caller) asset_id amount).2 =
      .ok (.Burned asset_id caller (d.supply - Assets.getBal s asset_id caller)) ∧
    Assets.getBal (Assets.burn s (.signed caller) asset_id amount).1 asset_id caller = 0 ∧
    lookupA (Assets.burn s (.signed caller) asset_id amount).1.asset asset_id =
      some ⟨d.owner, d.supply - Assets.getBal s asset_id caller⟩ ∧
    (d.supply - Assets.getBal s asset_id caller) + Assets.getBal s asset_id caller =
      d.supply := by
  obtain ⟨hA, hB, h1, h2⟩ := hcons
  have hmem : (asset_id, d) ∈ s.asset := mem_of_lookupA hl
  obtain ⟨hsum, hsupU, hklt⟩ := h1 _ hmem
  dsimp only at hsum hsupU hklt
  have hble : Assets.getBal s asset_id caller ≤ Assets.sumFor s.account asset_id := by
    rw [Assets.getBal_eq]
    exact getD_le_sumFor _ _ _
  rw [Assets.burn_ok_eq s caller asset_id amount d hl]
  have hz : Assets.getBal s asset_id caller - amount = 0 := by omega
  rw [hz]
  have hburnt : Assets.getBal s asset_id caller - 0 = Assets.getBal s asset_id caller := by
    omega
  rw [hburnt]
  refine ⟨rfl, ?_, ?_, by omega⟩
  · show (lookupA (insertA s.account (asset_id, caller) 0) (asset_id, caller)).getD 0 = 0
    rw [lookupA_insertA, if_pos rfl]
    rfl
  · show lookupA (insertA s.asset asset_id
      { d with supply := d.supply - Assets.getBal s asset_id caller }) asset_id =
      some ⟨d.owner, d.supply - Assets.getBal s asset_id caller⟩
    rw [lookupA_insertA, if_pos rfl]

/-- Witness for C3 at a concrete consistent state: supply 60 all held by
account 2, burning 1000. -/
theorem saturating_burn_exact_witness :
    (Assets.burn ⟨[(0, ⟨1, 60⟩)], [((0, 2), 60)], [], 1⟩ (.signed 2) 0 1000).2 =
      .ok (.Burned 0 2 0) ∧
    Assets.getBal (Assets.burn ⟨[(0, ⟨1, 60⟩)], [((0, 2), 60)], [], 1⟩
      (.signed 2) 0 1000).1 0 2 = 0 ∧
    lookupA (Assets.burn ⟨[(0, ⟨1, 60⟩)], [((0, 2), 60)], [], 1⟩
      (.signed 2) 0 1000).1.asset 0 = some ⟨1, 0⟩ ∧
    (0 : Nat) + 60 = 60 :=
  saturating_burn_exact ⟨[(0, ⟨1, 60⟩)], [((0, 2), 60)], [], 1⟩ 2 0 1000 ⟨1, 60⟩
    (by decide) (by decide) (by decide)

/-- C9: every successful unique-asset mint with supply s > 0 records the
new asset with supply s, credits the entire supply s to the caller's
balance under the freshly allocated id, and — whenever no balances were
recorded under that id, as on every reachable state — the sum of balances
for the new asset equals s, so conservation holds at creation. -/
theorem nft_mint_credits_full_supply (s : Nft.State) (who : Nat) (meta : List Nat)
    (sup : Nat) (hpos : 0 < sup) :
    (Nft.mint s (.signed who) meta sup).2 = .ok (.Created who s.nonce) ∧
    lookupA (Nft.mint s (.signed who) meta sup).1.uniqueAsset s.nonce =
      some ⟨who, meta, sup⟩ ∧
    Nft.getBal (Nft.mint s (.signed who) meta sup).1 s.nonce who = sup ∧
    (Assets.sumFor s.account s.nonce = 0 →
      Assets.sumFor (Nft.mint s (.signed who) meta sup).1.account s.nonce = sup) := by
  rw [Nft.mint_ok_eq_nft s who meta sup hpos]
  refine ⟨rfl, ?_, ?_, ?_⟩
  · show lookupA (insertA s.uniqueAsset s.nonce ⟨who, meta, sup⟩) s.nonce =
      some ⟨who, meta, sup⟩
    rw [lookupA_insertA, if_pos rfl]
  · show (lookupA (insertA s.account (s.nonce, who) sup) (s.nonce, who)).getD 0 = sup
    rw [lookupA_insertA, if_pos rfl]
    rfl
  · intro hz
    show Assets.sumFor (insertA s.account (s.nonce, who) sup) s.nonce = sup
    have hS := sumFor_insertA_same s.account s.nonce who sup
    have hob : (lookupA s.account (s.nonce, who)).getD 0 ≤ Assets.sumFor s.account s.nonce :=
      getD_le_sumFor _ _ _
    omega

/-- Witness for C9 at the genesis state. -/
theorem nft_mint_credits_full_supply_witness :
    (Nft.mint Nft.genesis (.signed 5) [1, 2] 3).2 = .ok (.Created 5 0) ∧
    lookupA (Nft.mint Nft.genesis (.signed 5) [1, 2] 3).1.uniqueAsset 0 =
      some ⟨5, [1, 2], 3⟩ ∧
    Nft.getBal (Nft.mint Nft.genesis (.signed 5) [1, 2] 3).1 0 5 = 3 ∧
    Assets.sumFor (Nft.mint Nft.genesis (.signed 5) [1, 2] 3).1.account 0 = 3 := by
  have h := nft_mint_credits_full_supply Nft.genesis 5 [1, 2] 3 (by decide)
  exact ⟨h.1, h.2.1, h.2.2.1, h.2.2.2 (by decide)⟩

/-- C10: on a consistent state (supply equals the sum of balances), a
successful fungible transfer's saturating credit never actually clamps:
the emitted Transferred amount is exactly the debited amount
min(balance(from), amount); for distinct accounts the recipient gains and
the sender loses exactly that amount, and a self-transfer leaves the
balance unchanged. -/
theorem transfer_credit_no_saturation (s : Assets.State) (from_ dest asset_id amount : Nat)
    (d : Assets.AssetDetails) (hcons : Assets.Consistent s)
    (hl : lookupA s.asset asset_id = some d) :
    (Assets.transfer s (.signed from_) asset_id amount dest).2 =
      .ok (.Transferred asset_id from_ dest (min (Assets.getBal s asset_id from_) amount)) ∧
    (from_ ≠ dest →
      Assets.getBal (Assets.transfer s (.signed from_) asset_id amount dest).1 asset_id dest =
        Assets.getBal s asset_id dest + min (Assets.getBal s asset_id from_) amount ∧
      Assets.getBal s asset_id from_ =
        Assets.getBal (Assets.transfer s (.signed from_) asset_id amount dest).1 asset_id from_
          + min (Assets.getBal s asset_id from_) amount) ∧
    (from_ = dest →
      Assets.getBal (Assets.transfer s (.signed from_) asset_id amount dest).1 asset_id from_ =
        Assets.getBal s asset_id from_) := by
  obtain ⟨hA, hB, h1, h2⟩ := hcons
  have hmem : (asset_id, d) ∈ s.asset := mem_of_lookupA hl
  obtain ⟨hsum, hsupU, hklt⟩ := h1 _ hmem
  dsimp only at hsum hsupU hklt
  rw [Assets.transfer_ok_eq s from_ asset_id amount dest d hl]
  dsimp only
  simp only [Assets.getBal_eq]
  have hgb : (lookupA s.account (asset_id, from_)).getD 0 ≤ Assets.sumFor s.account asset_id :=
    getD_le_sumFor _ _ _
  have hold :
      (lookupA (insertA s.account (asset_id, from_)
        ((lookupA s.account (asset_id, from_)).getD 0 - amount)) (asset_id, dest)).getD 0 =
      if dest = from_ then (lookupA s.account (asset_id, from_)).getD 0 - amount
      else (lookupA s.account (asset_id, dest)).getD 0 := by
    rw [lookupA_insertA]
    by_cases hfd : dest = from_
    · rw [if_pos (by rw [hfd]), if_pos hfd]
      rfl
    · rw [if_neg (by simp [hfd]), if_neg hfd]
  have hnosat :
      (lookupA (insertA s.account (asset_id, from_)
        ((lookupA s.account (asset_id, from_)).getD 0 - amount)) (asset_id, dest)).getD 0 +
      ((lookupA s.account (asset_id, from_)).getD 0 -
        ((lookupA s.account (asset_id, from_)).getD 0 - amount)) < U := by
    rw [hold]
    by_cases hfd : dest = from_
    · rw [if_pos hfd]
      omega
    · rw [if_neg hfd]
      have hpair := getD_pair_le_sumFor s.account asset_id from_ dest
        (fun hh => hfd hh.symm)
      omega
  have hsat := satAdd_eq_add
    ((lookupA (insertA s.account (asset_id, from_)
      ((lookupA s.account (asset_id, from_)).getD 0 - amount)) (asset_id, dest)).getD 0)
    ((lookupA s.account (asset_id, from_)).getD 0 -
      ((lookupA s.account (asset_id, from_)).getD 0 - amount)) hnosat
  refine ⟨?_, ?_, ?_⟩
  · have hev : satAdd
        ((lookupA (insertA s.account (asset_id, from_)
          ((lookupA s.account (asset_id, from_)).getD 0 - amount)) (asset_id, dest)).getD 0)
        ((lookupA s.account (asset_id, from_)).getD 0 -
          ((lookupA s.account (asset_id, from_)).getD 0 - amount)) -
        (lookupA (insertA s.account (asset_id, from_)
          ((lookupA s.account (asset_id, from_)).getD 0 - amount)) (asset_id, dest)).getD 0 =
        min ((lookupA s.account (asset_id, from_)).getD 0) amount := by
      rw [hsat]
      omega
    rw [hev]
  · intro hne
    constructor
    · rw [lookupA_insertA, if_pos rfl]
      show satAdd _ _ = _
      rw [hsat, hold, if_neg (fun hh => hne hh.symm)]
      omega
    · rw [lookupA_insertA,
        if_neg (fun hh : ((asset_id, from_) : Nat × Nat) = (asset_id, dest) => by
          simp only [Prod.mk.injEq] at hh
          exact hne hh.2),
        lookupA_insertA, if_pos rfl]
      show (lookupA s.account (asset_id, from_)).getD 0 = (some _).getD 0 + _
      rw [Option.getD_some]
      omega
  · intro heq
    subst heq
    rw [lookupA_insertA, if_pos rfl]
    show (some _).getD 0 = _
    rw [Option.getD_some, hsat, hold, if_pos rfl]
    omega

/-- Witness for C10 at a concrete consistent state: supply 100 split
60/40, transferring 50 from account 2 to account 3. -/
theorem transfer_credit_no_saturation_witness :
    (Assets.transfer ⟨[(0, ⟨1, 100⟩)], [((0, 2), 60), ((0, 3), 40)], [], 1⟩
      (.signed 2) 0 50 3).2 = .ok (.Transferred 0 2 3 50) ∧
    Assets.getBal (Assets.transfer ⟨[(0, ⟨1, 100⟩)], [((0, 2), 60), ((0, 3), 40)], [], 1⟩
      (.signed 2) 0 50 3).1 0 3 = 90 ∧
    (60 : Nat) = Assets.getBal (Assets.transfer
      ⟨[(0, ⟨1, 100⟩)], [((0, 2), 60), ((0, 3), 40)], [], 1⟩ (.signed 2) 0 50 3).1 0 2 + 50 := by
  have h := transfer_credit_no_saturation
    ⟨[(0, ⟨1, 100⟩)], [((0, 2), 60), ((0, 3), 40)], [], 1⟩ 2 3 0 50 ⟨1, 100⟩
    (by decide) (by decide)
  exact ⟨h.1, (h.2.1 (by decide)).1, (h.2.1 (by decide)).2⟩

/-- C4 counterexample: the claim says two consecutive successful creates
never allocate the same AssetId for every ledger state; but from the
state with nonce = 2^128 - 1 two consecutive fungible creates both
allocate id 2^128 - 1, because the saturating nonce stays at the
maximum. -/
theorem create_id_reuse_at_max_nonce :
    (Assets.create ⟨[], [], [], U - 1⟩ (.signed 0)).2 = .ok (.Created 0 (U - 1)) ∧
    (Assets.create (Assets.create ⟨[], [], [], U - 1⟩ (.signed 0)).1 (.signed 0)).2 =
      .ok (.Created 0 (U - 1)) := by decide

/-- C4 (amended): two consecutive successful fungible creates allocate
distinct AssetIds whenever the starting nonce is below the u128 maximum
(at the maximum the saturating allocator reuses it); two consecutive
unique-asset mints always allocate distinct ids, because the wrapping
increment never maps a nonce to itself. -/
theorem id_uniqueness_below_max :
    (∀ (s : Assets.State) (o1 o2 : Origin) (w1 w2 id1 id2 : Nat),
       s.nonce + 1 < U →
       (Assets.create s o1).2 = .ok (.Created w1 id1) →
       (Assets.create (Assets.create s o1).1 o2).2 = .ok (.Created w2 id2) →
       id1 ≠ id2) ∧
    (∀ (s : Nft.State) (o1 o2 : Origin) (m1 m2 : List Nat) (sup1 sup2 w1 w2 id1 id2 : Nat),
       (Nft.mint s o1 m1 sup1).2 = .ok (.Created w1 id1) →
       (Nft.mint (Nft.mint s o1 m1 sup1).1 o2 m2 sup2).2 = .ok (.Created w2 id2) →
       id1 ≠ id2) := by
  constructor
  · intro s o1 o2 w1 w2 id1 id2 hn h1 h2
    cases o1 with
    | root => exact absurd h1 (by simp [Assets.create])
    | unsigned => exact absurd h1 (by simp [Assets.create])
    | signed a =>
      cases o2 with
      | root => exact absurd h2 (by simp [Assets.create])
      | unsigned => exact absurd h2 (by simp [Assets.create])
      | signed b =>
        simp only [Assets.create_eq, Except.ok.injEq, Assets.Event.Created.injEq] at h1 h2
        obtain ⟨-, hid1⟩ := h1
        obtain ⟨-, hid2⟩ := h2
        rw [satAdd_eq_add _ _ hn] at hid2
        omega
  · intro s o1 o2 m1 m2 sup1 sup2 w1 w2 id1 id2 h1 h2
    cases o1 with
    | root => exact absurd h1 (by simp [Nft.mint])
    | unsigned => exact absurd h1 (by simp [Nft.mint])
    | signed a =>
      by_cases hp1 : 0 < sup1
      · rw [Nft.mint_ok_eq_nft s a m1 sup1 hp1] at h1 h2
        cases o2 with
        | root => exact absurd h2 (by simp [Nft.mint])
        | unsigned => exact absurd h2 (by simp [Nft.mint])
        | signed b =>
          by_cases hp2 : 0 < sup2
          · rw [Nft.mint_ok_eq_nft _ b m2 sup2 hp2] at h2
            simp only [Except.ok.injEq, Nft.Event.Created.injEq] at h1 h2
            obtain ⟨-, hid1⟩ := h1
            obtain ⟨-, hid2⟩ := h2
            intro hc
            have hU : (s.nonce + 1) % U = (s.nonce + 1) % (2 ^ 128) := rfl
            omega
          · simp only [Nft.mint, if_neg hp2] at h2
            exact Except.noConfusion h2
      · simp only [Nft.mint, if_neg hp1] at h1
        exact Except.noConfusion h1

/-- Witness for C4 amended theorem: consecutive allocations from genesis
yield ids 0 and 1 in both pallets. -/
theorem id_uniqueness_below_max_witness :
    ((Assets.create Assets.genesis (.signed 3)).2 = .ok (.Created 3 0)) ∧
    ((Assets.create (Assets.create Assets.genesis (.signed 3)).1 (.signed 4)).2 =
      .ok (.Created 4 1)) ∧
    ((0 : Nat) ≠ 1) ∧
    ((Nft.mint Nft.genesis (.signed 3) [] 1).2 = .ok (.Created 3 0)) ∧
    ((Nft.mint (Nft.mint Nft.genesis (.signed 3) [] 1).1 (.signed 4) [] 2).2 =
      .ok (.Created 4 1)) ∧
    ((1 : Nat) ≠ 0) :=
  ⟨by decide, by decide,
   id_uniqueness_below_max.1 Assets.genesis (.signed 3) (.signed 4) 3 4 0 1
     (by decide) (by decide) (by decide),
   by decide, by decide,
   fun hc =>
     id_uniqueness_below_max.2 Nft.genesis (.signed 3) (.signed 4) [] [] 1 2 3 4 0 1
       (by decide) (by decide) hc.symm⟩

namespace Assets

theorem applyOp_error_eq (maxLen : Nat) (s : State) (op : Op) (e : CallError)
    (h : (applyOp maxLen s op).2 = .error e) : (applyOp maxLen s op).1 = s := by
  cases op with
  | create o =>
    cases o with
    | signed who =>
      have h1 : (create s (.signed who)).2 = .error e := h
      rw [create_eq] at h1
      exact Except.noConfusion h1
    | root => rfl
    | unsigned => rfl
  | setMetadata o id n sy =>
    show (set_metadata_checked maxLen s o id n sy).1 = s
    by_cases hlen : n.length ≤ maxLen ∧ sy.length ≤ maxLen
    · cases o with
      | signed caller =>
        rcases hl : lookupA s.asset id with _ | d
        · simp [set_metadata_checked, set_metadata, hlen, hl]
        · by_cases hown : d.owner = caller
          · have h1 : (set_metadata_checked maxLen s (.signed caller) id n sy).2 =
                .ok (.MetadataSet id n sy) := by
              simp [set_metadata_checked, set_metadata, hlen, hl, hown]
            have h2 : (set_metadata_checked maxLen s (.signed caller) id n sy).2 =
                .error e := h
            rw [h1] at h2
            exact Except.noConfusion h2
          · simp [set_metadata_checked, set_metadata, hlen, hl, hown]
      | root => simp [set_metadata_checked, set_metadata, hlen]
      | unsigned => simp [set_metadata_checked, set_metadata, hlen]
    · simp [set_metadata_checked, hlen]
  | mint o id amt dst =>
    show (mint s o id amt dst).1 = s
    cases o with
    | signed caller =>
      rcases hl : lookupA s.asset id with _ | d
      · simp only [mint, hl]
      · by_cases hown : d.owner = caller
        · have h1 : (mint s (.signed caller) id amt dst).2 = .error e := h
          rw [mint_ok_eq s caller id amt dst d hl hown] at h1
          exact Except.noConfusion h1
        · rw [mint_no_permission_eq s caller id amt dst d hl hown]
    | root => rfl
    | unsigned => rfl
  | burn o id amt =>
    show (burn s o id amt).1 = s
    cases o with
    | signed caller =>
      rcases hl : lookupA s.asset id with _ | d
      · simp only [burn, hl]
        rfl
      · have h1 : (burn s (.signed caller) id amt).2 = .error e := h
        rw [burn_ok_eq s caller id amt d hl] at h1
        exact Except.noConfusion h1
    | root => rfl
    | unsigned => rfl
  | transfer o id amt dst =>
    show (transfer s o id amt dst).1 = s
    cases o with
    | signed from_ =>
      rcases hl : lookupA s.asset id with _ | d
      · simp only [transfer, hl]
        rfl
      · have h1 : (transfer s (.signed from_) id amt dst).2 = .error e := h
        rw [transfer_ok_eq s from_ id amt dst d hl] at h1
        exact Except.noConfusion h1
    | root => rfl
    | unsigned => rfl

end Assets

namespace Nft

theorem applyOp_error_eq_nft (s : State) (op : Op) (e : CallError)
    (h : (applyOp s op).2 = .error e) : (applyOp s op).1 = s := by
  cases op with
  | mint o m sup =>
    show (mint s o m sup).1 = s
    cases o with
    | signed who =>
      by_cases hpos : 0 < sup
      · have h1 : (mint s (.signed who) m sup).2 = .error e := h
        rw [mint_ok_eq_nft s who m sup hpos] at h1
        exact Except.noConfusion h1
      · simp only [mint, if_neg hpos]
    | root => rfl
    | unsigned => rfl
  | burn o id amt =>
    show (burn s o id amt).1 = s
    cases o with
    | signed owner =>
      rcases hl : lookupA s.uniqueAsset id with _ | d
      · simp only [burn, hl]
        rfl
      · by_cases hb : 0 < getBal s id owner
        · have h1 : (burn s (.signed owner) id amt).2 = .error e := h
          rw [burn_ok_eq_nft s owner id amt d hl hb] at h1
          exact Except.noConfusion h1
        · simp only [burn, hl, Option.isSome_some, if_pos, if_neg hb]
    | root => rfl
    | unsigned => rfl
  | transfer o id amt dst =>
    show (transfer s o id amt dst).1 = s
    cases o with
    | signed from_ =>
      rcases hl : lookupA s.uniqueAsset id with _ | d
      · simp only [transfer, hl]
        rfl
      · by_cases hb : 0 < getBal s id from_
        · have h1 : (transfer s (.signed from_) id amt dst).2 = .error e := h
          rw [transfer_ok_eq_nft s from_ id amt dst d hl hb] at h1
          exact Except.noConfusion h1
        · simp only [transfer, hl, Option.isSome_some, if_pos, if_neg hb]
    | root => rfl
    | unsigned => rfl

end Nft

/-- C6: error atomicity — for every call of either pallet (create,
set metadata, mint, burn, transfer) and every input, if the call returns
an error then the entire storage state (registry, balance store, metadata
store, nonce) is unchanged; in this embedding a call returns either one
event or an error, so an erroring call also emits no event. -/
theorem error_atomicity :
    (∀ (maxLen : Nat) (s : Assets.State) (op : Assets.Op) (e : Assets.CallError),
       (Assets.applyOp maxLen s op).2 = .error e → (Assets.applyOp maxLen s op).1 = s) ∧
    (∀ (s : Nft.State) (op : Nft.Op) (e : Nft.CallError),
       (Nft.applyOp s op).2 = .error e → (Nft.applyOp s op).1 = s) :=
  ⟨Assets.applyOp_error_eq, Nft.applyOp_error_eq_nft⟩

/-- Witness for C6: concrete failing mint and burn calls leave genesis
unchanged. -/
theorem error_atomicity_witness :
    (Assets.applyOp 8 Assets.genesis (.mint (.signed 1) 0 5 2)).2 =
      .error (.Pallet .UnknownAssetId) ∧
    (Assets.applyOp 8 Assets.genesis (.mint (.signed 1) 0 5 2)).1 = Assets.genesis ∧
    (Nft.applyOp Nft.genesis (.burn (.signed 1) 0 5)).2 =
      .error (.Pallet .UnknownAssetId) ∧
    (Nft.applyOp Nft.genesis (.burn (.signed 1) 0 5)).1 = Nft.genesis :=
  ⟨by decide,
   error_atomicity.1 8 Assets.genesis (.mint (.signed 1) 0 5 2)
     (.Pallet .UnknownAssetId) (by decide),
   by decide,
   error_atomicity.2 Nft.genesis (.burn (.signed 1) 0 5)
     (.Pallet .UnknownAssetId) (by decide)⟩

theorem allOk_cons_ok_assets (maxLen : Nat) (s : Assets.State) (op : Assets.Op)
    (s1 : Assets.State) (ev : Assets.Event) (t : List Assets.Op)
    (h : Assets.applyOp maxLen s op = (s1, .ok ev)) :
    Assets.allOk maxLen s (op :: t) = Assets.allOk maxLen s1 t := by
  simp only [Assets.allOk, h]

theorem allOk_mint_create (s : Assets.State)
    (h : lookupA s.asset (U - 1) = some ⟨0, 0⟩) :
    Assets.allOk 8 s
      [Assets.Op.mint (.signed 0) (U - 1) 100 1, Assets.Op.create (.signed 0)] = true := by
  have hm := Assets.mint_ok_eq s 0 (U - 1) 100 1 ⟨0, 0⟩ h rfl
  rw [allOk_cons_ok_assets 8 s (Assets.Op.mint (.signed 0) (U - 1) 100 1) _ _ _ hm]
  rw [allOk_cons_ok_assets 8 _ (Assets.Op.create (.signed 0)) _ _ _ (Assets.create_eq _ 0)]
  rfl

theorem conserves_violation_mint_create (s : Assets.State)
    (ha : lookupA s.asset (U - 1) = some ⟨0, 0⟩)
    (hacc : s.account = []) (hn : s.nonce = U - 1) :
    ¬ Assets.Conserves (Assets.run 8 s
      [Assets.Op.mint (.signed 0) (U - 1) 100 1, Assets.Op.create (.signed 0)]) := by
  have hm := Assets.mint_ok_eq s 0 (U - 1) 100 1 ⟨0, 0⟩ ha rfl
  have hrun : Assets.run 8 s
      [Assets.Op.mint (.signed 0) (U - 1) 100 1, Assets.Op.create (.signed 0)] =
      (Assets.create (Assets.mint s (.signed 0) (U - 1) 100 1).1 (.signed 0)).1 := rfl
  rw [hrun, hm]
  dsimp only
  rw [Assets.create_eq]
  dsimp only
  intro hC
  have hlook : lookupA (insertA (insertA s.asset (U - 1) ⟨0, satAdd 0 100⟩)
      s.nonce ⟨0, 0⟩) (U - 1) = some ⟨0, 0⟩ := by
    rw [lookupA_insertA, if_pos hn.symm]
  have hone := hC _ (mem_of_lookupA hlook)
  dsimp only at hone
  rw [hacc] at hone
  exact absurd hone (by decide)

/-- C1 counterexample: the claim asserts supply conservation after every
successful operation of every sequence; but the sequence of 2^128
successful creates followed by a successful mint of 100 to account 1 on
asset 2^128 - 1 and one more successful create violates it: the last
create re-allocates the saturated id 2^128 - 1 and overwrites the asset
record with supply 0 while the 100 minted tokens remain in the balance
store. -/
theorem supply_conservation_fails_at_allocator_reuse :
    Assets.allOk 8 Assets.genesis
      (List.replicate U (Assets.Op.create (.signed 0)) ++
        [Assets.Op.mint (.signed 0) (U - 1) 100 1, Assets.Op.create (.signed 0)]) = true ∧
    ¬ Assets.Conserves (Assets.run 8 Assets.genesis
      (List.replicate U (Assets.Op.create (.signed 0)) ++
        [Assets.Op.mint (.signed 0) (U - 1) 100 1, Assets.Op.create (.signed 0)])) := by
  have hU : U = 2 ^ 128 := rfl
  have hacc : (Assets.run 8 Assets.genesis
      (List.replicate U (Assets.Op.create (.signed 0)))).account = [] :=
    Assets.run_replicate_create_account 8 U Assets.genesis
  have hg0 : Assets.genesis.nonce = 0 := rfl
  have hnon : (Assets.run 8 Assets.genesis
      (List.replicate U (Assets.Op.create (.signed 0)))).nonce = U - 1 := by
    rw [Assets.run_replicate_create_nonce 8 U Assets.genesis (by omega)]
    omega
  have hasset : lookupA (Assets.run 8 Assets.genesis
      (List.replicate U (Assets.Op.create (.signed 0)))).asset (U - 1) = some ⟨0, 0⟩ := by
    rw [show List.replicate U (Assets.Op.create (Origin.signed 0)) =
        List.replicate (U - 1) (Assets.Op.create (Origin.signed 0)) ++
          List.replicate 1 (Assets.Op.create (Origin.signed 0)) from by
      rw [← List.replicate_add]
      congr 1]
    rw [Assets.run_append]
    have hmid : (Assets.run 8 Assets.genesis
        (List.replicate (U - 1) (Assets.Op.create (.signed 0)))).nonce = U - 1 := by
      rw [Assets.run_replicate_create_nonce 8 (U - 1) Assets.genesis (by omega)]
      omega
    show lookupA (Assets.create (Assets.run 8 Assets.genesis
      (List.replicate (U - 1) (Assets.Op.create (.signed 0)))) (.signed 0)).1.asset
      (U - 1) = some ⟨0, 0⟩
    rw [Assets.create_eq]
    dsimp only
    rw [lookupA_insertA, if_pos (show U - 1 = _ by rw [hmid])]
  constructor
  · rw [Assets.allOk_append, Assets.allOk_replicate_create]
    simp only [Bool.true_and]
    exact allOk_mint_create _ hasset
  · rw [Assets.run_append]
    exact conserves_violation_mint_create _ hasset hacc hnon

/-- C1 (amended): supply conservation — for every recorded asset, the
supply equals the sum of all balances stored under its id — holds after
every operation of every sequence from genesis, provided the sequence
performs fewer than 2^128 fungible creates (so the saturating allocator
never reuses an id), respectively fewer than 2^128 unique-asset mints
with u128-sized supplies (so the wrapping allocator never reuses an
id). -/
theorem supply_conservation_bounded_allocation :
    (∀ (maxLen : Nat) (ops : List Assets.Op),
       Assets.countCreates ops < U →
       Assets.Conserves (Assets.run maxLen Assets.genesis ops)) ∧
    (∀ ops : List Nft.Op,
       (∀ op ∈ ops, op.fitsWidth) → Nft.countMints ops < U →
       Nft.Conserves (Nft.run Nft.genesis ops)) := by
  constructor
  · intro maxLen ops hc
    have h := Assets.consistent_run maxLen ops Assets.genesis Assets.consistent_genesis
      (by show (0 : Nat) + Assets.countCreates ops < U; omega)
    exact Assets.conserves_of_consistent _ h.1
  · intro ops hw hc
    have h := Nft.consistent_run_nft ops Nft.genesis Nft.consistent_genesis_nft hw
      (by show (0 : Nat) + Nft.countMints ops < U; omega)
    exact Nft.conserves_of_consistent_nft _ h.1

/-- Witness for C1 amended theorem on concrete short sequences. -/
theorem supply_conservation_bounded_allocation_witness :
    Assets.countCreates [.create (.signed 1), .mint (.signed 1) 0 5 2] < U ∧
    Assets.Conserves (Assets.run 8 Assets.genesis
      [.create (.signed 1), .mint (.signed 1) 0 5 2]) ∧
    Nft.Op.fitsWidth (.mint (.signed 1) [3] 4) ∧
    Nft.countMints [.mint (.signed 1) [3] 4] < U ∧
    Nft.Conserves (Nft.run Nft.genesis [.mint (.signed 1) [3] 4]) :=
  ⟨by decide,
   supply_conservation_bounded_allocation.1 8
     [.create (.signed 1), .mint (.signed 1) 0 5 2] (by decide),
   by decide,
   by decide,
   supply_conservation_bounded_allocation.2 [.mint (.signed 1) [3] 4]
     (by
       intro op hop
       obtain rfl := List.mem_singleton.mp hop
       decide)
     (by decide)⟩
